import Mathlib

/-!
Shallow embedding of the storage core of `nit` (a git-like version-control
tool written in Rust): the lockfile primitive (`src/lockfile.rs`), the
content-addressable object database (`src/database/mod.rs`,
`src/database/tree.rs`), and the binary staging index
(`src/index/mod.rs`, `src/index/entry.rs`, `src/index/checksum.rs`).

Modelling conventions:
* Bytes are `Nat` values (< 256 for real data); byte strings are `List Nat`.
* A filesystem path is its list of components (`PathBuf` is compared and
  iterated component-wise in Rust), each component being its byte string.
* `BTreeMap` is an association list kept sorted by key (the derived
  lexicographic order on `List (List Nat)` coincides with `PathBuf`'s `Ord`);
  `HashMap` is an unsorted association list with replace-on-insert;
  `HashSet` is a duplicate-free list.
* SHA-1 and zlib compression are abstracted as function parameters `H`
  (digest, 20 bytes) and `Z` (compression): none of the verified properties
  depend on their internals, only on their being functions.
* Fallible Rust code returning `crate::Result` becomes `Except NitErr`;
  the distinct Rust error enums are merged into the single `NitErr` type,
  keeping the constructor names.
-/

/-- Decidable equality for `Except`, used to evaluate concrete runs of the
embedded operations. -/
instance {ε α : Type} [DecidableEq ε] [DecidableEq α] : DecidableEq (Except ε α)
  | .ok a, .ok b =>
    if h : a = b then .isTrue (by subst h; rfl)
    else .isFalse (fun hh => h (Except.ok.inj hh))
  | .error a, .error b =>
    if h : a = b then .isTrue (by subst h; rfl)
    else .isFalse (fun hh => h (Except.error.inj hh))
  | .ok _, .error _ => .isFalse nofun
  | .error _, .ok _ => .isFalse nofun

namespace Nit

/-- Comp models one path component as its byte string (`OsStr` bytes). -/
abbrev Comp := List Nat

/-- Path models `PathBuf` as the list of its components. -/
abbrev Path := List Comp

/-- Byte string of a path: components joined by the slash byte 47, as in
`path.as_os_str().as_bytes()` for a normal relative path. -/
def pathBytes (p : Path) : List Nat := List.intercalate [47] p

/-- Component view of a byte string: split on the slash byte 47, modelling
`PathBuf::from(OsString::from_vec(bytes))` followed by component-wise use. -/
def splitPath (bs : List Nat) : Path := bs.splitOn 47

/-- Proper-ancestor relation on paths: `p` is a strictly shorter prefix of
`q` by components.  This is the "ancestor (proper path prefix by
components)" relation of the specification. -/
def Ancestor (p q : Path) : Prop := p.length < q.length ∧ q.take p.length = p

instance (p q : Path) : Decidable (Ancestor p q) := by
  unfold Ancestor; infer_instance

/-- parentDirectories is `Entry::parent_directories` from
`src/index/entry.rs` (also duplicated in `src/database/tree.rs`): the
`ancestors()` of the path with the path itself and the empty root dropped,
in ascending length order.  For components `[a, b, c]` it is `[[a], [a, b]]`. -/
def parentDirectories (p : Path) : List Path :=
  ((List.range p.length).drop 1).map (fun i => p.take i)

/-- lookupA is association-list lookup, modelling map `get`. -/
def lookupA {α β : Type} [DecidableEq α] (k : α) : List (α × β) → Option β
  | [] => none
  | (a, b) :: t => if a = k then some b else lookupA k t

/-- eraseA removes the binding of a key, modelling map `remove`. -/
def eraseA {α β : Type} [DecidableEq α] (k : α) (l : List (α × β)) : List (α × β) :=
  l.filter (fun kv => kv.1 ≠ k)

/-- insOrd inserts a binding in front of the first key greater than `k`,
keeping a sorted association list sorted.  Used below on lists whose keys
never equal `k`. -/
def insOrd {α β : Type} [LinearOrder α] (k : α) (v : β) : List (α × β) → List (α × β)
  | [] => [(k, v)]
  | (a, b) :: t => if k < a then (k, v) :: (a, b) :: t else (a, b) :: insOrd k v t

/-- insA models `BTreeMap::insert`: replace any binding of `k`, keeping the
list sorted by key. -/
def insA {α β : Type} [DecidableEq α] [LinearOrder α] (k : α) (v : β) (l : List (α × β)) :
    List (α × β) :=
  insOrd k v (eraseA k l)

/-- setA models `HashMap::insert`: replace any binding of `k` (order
irrelevant, the list is a hash map). -/
def setA {α β : Type} [DecidableEq α] (k : α) (v : β) (l : List (α × β)) : List (α × β) :=
  (k, v) :: eraseA k l

/-- insertSet models `HashSet::insert`. -/
def insertSet {α : Type} [DecidableEq α] (x : α) (s : List α) : List α :=
  if x ∈ s then s else x :: s

/-- removeSet models `HashSet::remove`. -/
def removeSet {α : Type} [DecidableEq α] (x : α) (s : List α) : List α :=
  s.filter (fun y => y ≠ x)

/-- u32 truncation, modelling Rust `as u32`. -/
def u32 (n : Nat) : Nat := n % 2 ^ 32

/-- Big-endian 4-byte encoding of a `u32` value (`u32::to_be_bytes`). -/
def be32 (n : Nat) : List Nat :=
  [n / 2 ^ 24 % 256, n / 2 ^ 16 % 256, n / 2 ^ 8 % 256, n % 256]

/-- Big-endian 2-byte encoding of a `u16` value (`u16::to_be_bytes`). -/
def be16 (n : Nat) : List Nat := [n / 2 ^ 8 % 256, n % 256]

/-- Big-endian value of a byte string (`u32::from_be_bytes` and friends). -/
def beVal (bs : List Nat) : Nat := bs.foldl (fun a b => a * 256 + b) 0

/-- padMod8 appends NUL bytes until the length is a multiple of 8,
modelling the `while bytes.len() % ENTRY_BLOCK != 0 { bytes.push(0) }`
loop in `Entry::bytes`. -/
def padMod8 (l : List Nat) : List Nat :=
  l ++ List.replicate ((8 - l.length % 8) % 8) 0

/-- Stat models the subset of `std::fs::Metadata` consumed by
`Entry::new` (`MetadataExt` accessors), as unbounded integers before the
`as u32` truncation. -/
structure Stat where
  ctime : Nat
  ctime_nsec : Nat
  mtime : Nat
  mtime_nsec : Nat
  dev : Nat
  ino : Nat
  mode : Nat
  uid : Nat
  gid : Nat
  size : Nat
deriving DecidableEq, Repr

/-- isExecutable is `is_executable` from `src/utils.rs`:
`mode & 0o111 != 0`. -/
def isExecutable (mode : Nat) : Bool := mode &&& 0o111 != 0

/-- Index entry, `Entry` from `src/index/entry.rs`.  The ten metadata
fields hold `u32` values; `oid` is the 20-byte object id; `flags` is the
`u16` flags field. -/
structure Index.Entry where
  ctime : Nat
  ctime_nsec : Nat
  mtime : Nat
  mtime_nsec : Nat
  dev : Nat
  ino : Nat
  mode : Nat
  uid : Nat
  gid : Nat
  size : Nat
  oid : List Nat
  flags : Nat
  path : Path
deriving DecidableEq, Repr

/-- REGULAR_MODE from `src/index/entry.rs`. -/
def REGULAR_MODE : Nat := 0o100644

/-- EXECUTABLE_MODE from `src/index/entry.rs`. -/
def EXECUTABLE_MODE : Nat := 0o100755

/-- MAX_PATH_SIZE from `src/index/entry.rs`. -/
def MAX_PATH_SIZE : Nat := 0xfff

/-- Entry.new is `Entry::new`: truncate each metadata field `as u32`,
derive the mode from `is_executable`, and set
`flags = min(path byte length as u16, MAX_PATH_SIZE)`. -/
def Index.Entry.new (path : Path) (oid : List Nat) (stat : Stat) : Index.Entry where
  ctime := u32 stat.ctime
  ctime_nsec := u32 stat.ctime_nsec
  mtime := u32 stat.mtime
  mtime_nsec := u32 stat.mtime_nsec
  dev := u32 stat.dev
  ino := u32 stat.ino
  mode := if isExecutable stat.mode then EXECUTABLE_MODE else REGULAR_MODE
  uid := u32 stat.uid
  gid := u32 stat.gid
  size := u32 stat.size
  oid := oid
  flags := min ((pathBytes path).length % 2 ^ 16) MAX_PATH_SIZE
  path := path

/-- Entry.parentDirectories is the `entry.parent_directories()` method. -/
def Index.Entry.parentDirectories (e : Index.Entry) : List Path :=
  Nit.parentDirectories e.path

/-- Entry.bytes is `Entry::bytes`: ten big-endian `u32` fields, the 20
oid bytes, the big-endian `u16` flags, the path bytes, a NUL terminator,
then NUL padding to a multiple of 8 bytes. -/
def Index.Entry.bytes (e : Index.Entry) : List Nat :=
  padMod8 (be32 e.ctime ++ be32 e.ctime_nsec ++ be32 e.mtime ++ be32 e.mtime_nsec ++
    be32 e.dev ++ be32 e.ino ++ be32 e.mode ++ be32 e.uid ++ be32 e.gid ++ be32 e.size ++
    e.oid ++ be16 e.flags ++ pathBytes e.path ++ [0])

/-- Entry.parse is `Entry::parse`: drain ten big-endian `u32`s, 20 oid
bytes and a `u16`, then take path bytes up to the first NUL.  Callers
(`read_entries`) always pass at least 64 bytes. -/
def Index.Entry.parse (data : List Nat) : Index.Entry where
  ctime := beVal (data.take 4)
  ctime_nsec := beVal ((data.drop 4).take 4)
  mtime := beVal ((data.drop 8).take 4)
  mtime_nsec := beVal ((data.drop 12).take 4)
  dev := beVal ((data.drop 16).take 4)
  ino := beVal ((data.drop 20).take 4)
  mode := beVal ((data.drop 24).take 4)
  uid := beVal ((data.drop 28).take 4)
  gid := beVal ((data.drop 32).take 4)
  size := beVal ((data.drop 36).take 4)
  oid := (data.drop 40).take 20
  flags := beVal ((data.drop 60).take 2)
  path := splitPath ((data.drop 62).takeWhile (fun b => b ≠ 0))

/-- Entry.WF states that an entry holds representable field values and a
well-formed path: `u32`/`u16` fields in range, a 20-byte oid, and a
nonempty path whose component bytes contain neither NUL nor slash (true of
every path handed to `Index::add` by the tool). -/
def Index.Entry.WF (e : Index.Entry) : Prop :=
  e.ctime < 2 ^ 32 ∧ e.ctime_nsec < 2 ^ 32 ∧ e.mtime < 2 ^ 32 ∧ e.mtime_nsec < 2 ^ 32 ∧
  e.dev < 2 ^ 32 ∧ e.ino < 2 ^ 32 ∧ e.mode < 2 ^ 32 ∧ e.uid < 2 ^ 32 ∧
  e.gid < 2 ^ 32 ∧ e.size < 2 ^ 32 ∧ e.oid.length = 20 ∧ e.flags < 2 ^ 16 ∧
  e.path ≠ [] ∧ ∀ c ∈ e.path, (0 : Nat) ∉ c ∧ (47 : Nat) ∉ c

instance (e : Index.Entry) : Decidable e.WF := by
  unfold Index.Entry.WF; infer_instance

/-- Index is the `Index` struct of `src/index/mod.rs`: the `BTreeMap` of
entries ordered by path, the `HashMap` from each ancestor directory to the
set of entry paths nested beneath it, and the dirty flag.  The `pathname`
and `lockfile` fields live outside the model: the filesystem and the
lockfile guard are threaded explicitly where an operation touches them. -/
structure Index where
  entries : List (Path × Index.Entry)
  parents : List (Path × List Path)
  changed : Bool
deriving DecidableEq, Repr

/-- Index.new is `Index::new` restricted to the in-memory state. -/
def Index.new : Index := { entries := [], parents := [], changed := false }

/-- Index.storeEntry is `Index::store_entry`: record the entry path in the
set of every parent directory, then insert the entry keyed by its path. -/
def Index.storeEntry (ix : Index) (e : Index.Entry) : Index :=
  { ix with
    parents := (parentDirectories e.path).foldl
      (fun m d => setA d (insertSet e.path ((lookupA d m).getD [])) m) ix.parents
    entries := insA e.path e ix.entries }

/-- Index.removeDirs is the loop of `Index::remove_entry` over the
entry's parent directories: remove the path from each directory's set,
deleting a directory key whose set becomes empty.  The `?` on
`parents.get_mut(dirname)` aborts the whole function on a missing key, with
the updates made so far kept — the `Bool` reports whether the loop ran to
completion. -/
def Index.removeDirs (p : Path) : List Path → List (Path × List Path) →
    List (Path × List Path) × Bool
  | [], m => (m, true)
  | d :: ds, m =>
    match lookupA d m with
    | none => (m, false)
    | some s =>
      let s' := removeSet p s
      Index.removeDirs p ds (if s'.isEmpty then eraseA d m else setA d s' m)

/-- Index.removeEntry is `Index::remove_entry`: look the entry up (no-op
when absent), walk its parent directories, and finally remove the entry —
unless the directory walk aborted early, in which case the entry stays. -/
def Index.removeEntry (ix : Index) (p : Path) : Index :=
  match lookupA p ix.entries with
  | none => ix
  | some e =>
    match Index.removeDirs e.path (parentDirectories e.path) ix.parents with
    | (m', true) => { ix with parents := m', entries := eraseA p ix.entries }
    | (m', false) => { ix with parents := m' }

/-- Index.removeChildren is `Index::remove_children`: remove every entry
listed in the (cloned) set of paths nested under `p`. -/
def Index.removeChildren (ix : Index) (p : Path) : Index :=
  match lookupA p ix.parents with
  | none => ix
  | some children => children.foldl Index.removeEntry ix

/-- Index.discardConflicts is `Index::discard_conflicts`: drop any entry
sitting at an ancestor directory of the new entry's path (without touching
the parents map), then remove every entry nested under the new path. -/
def Index.discardConflicts (ix : Index) (e : Index.Entry) : Index :=
  Index.removeChildren
    { ix with
      entries := (Index.Entry.parentDirectories e).foldl (fun es d => eraseA d es) ix.entries }
    e.path

/-- Index.add is `Index::add`: build the entry, discard conflicting
entries, store it, and mark the index dirty. -/
def Index.add (ix : Index) (path : Path) (oid : List Nat) (stat : Stat) : Index :=
  let e := Index.Entry.new path oid stat
  { (ix.discardConflicts e).storeEntry e with changed := true }

/-- Index.addMany folds `Index::add` over a list of (path, oid, stat)
arguments. -/
def Index.addMany (ix : Index) (ops : List (Path × List Nat × Stat)) : Index :=
  ops.foldl (fun i op => i.add op.1 op.2.1 op.2.2) ix

/-- Index.isTracked is `Index::is_tracked`. -/
def Index.isTracked (ix : Index) (p : Path) : Bool :=
  (lookupA p ix.entries).isSome || (lookupA p ix.parents).isSome

/-- Error type merging the Rust error enums (`LockfileError`,
`ChecksumError`, `IndexError`, `DatabaseError` as boxed into
`crate::Result`), keeping the constructor names relevant to the claims.
`IoError` stands for any wrapped `std::io::Error`. -/
inductive NitErr where
  | MissingParent
  | NoPermission
  | StaleLock
  | IoError
  | LockDenied (lockPath : List Nat)
  | CouldNotReadFile
  | CouldNotWriteFile
  | BadChecksum
  | BadHeader
  | IncorrectSignature (sig : List Nat)
  | IncorrectVersion (v : Nat)
deriving DecidableEq, Repr

/-- FS is the slice of the filesystem a single `Lockfile` guard touches:
the content of the target path `P` and of the sibling `P.lock` (a `none`
means the file does not exist).  The parent directory is assumed to exist
and be writable, so the `MissingParent`/`NoPermission` arms of
`hold_for_update` do not arise in the model. -/
structure FS where
  target : Option (List Nat)
  lock : Option (List Nat)
deriving DecidableEq, Repr

/-- Lockfile is the `Lockfile` struct of `src/lockfile.rs`: the computed
lock path and whether the open handle is currently held (`lock: Option<File>`). -/
structure Lockfile where
  lockPath : List Nat
  held : Bool
deriving DecidableEq, Repr

/-- Byte string of the `.lock` suffix. -/
def lockExt : List Nat := [46, 108, 111, 99, 107]

/-- Lockfile.new is `Lockfile::new`: `add_extension(path, "lock")`, which
appends `.lock` to the file name. -/
def Lockfile.new (filePath : List Nat) : Lockfile :=
  { lockPath := filePath ++ lockExt, held := false }

/-- Lockfile.holdForUpdate is `Lockfile::hold_for_update`: a no-op when the
lock is already held; otherwise create `P.lock` with must-not-exist
semantics, failing with `LockDenied(P.lock)` when it already exists. -/
def Lockfile.holdForUpdate (lf : Lockfile) (fs : FS) : Except NitErr (Lockfile × FS) :=
  if lf.held then .ok (lf, fs)
  else
    match fs.lock with
    | some _ => .error (.LockDenied lf.lockPath)
    | none => .ok ({ lf with held := true }, { fs with lock := some [] })

/-- Lockfile.write is the `Write` impl for `Lockfile`: `self.lock()?`
fails with `StaleLock` when no lock is held, otherwise the bytes are
appended through the held handle. -/
def Lockfile.write (lf : Lockfile) (fs : FS) (buf : List Nat) : Except NitErr FS :=
  if lf.held then .ok { fs with lock := some ((fs.lock.getD []) ++ buf) }
  else .error .StaleLock

/-- Lockfile.commit is `Lockfile::commit`: `self.lock.take()` is wrapped in
`ok_or(StaleLock)` whose result is immediately dropped — the stale-lock
check is constructed and silently discarded — then `P.lock` is renamed
onto `P`, surfacing an io error when `P.lock` does not exist. -/
def Lockfile.commit (lf : Lockfile) (fs : FS) : Except NitErr (Lockfile × FS) :=
  match fs.lock with
  | some content => .ok ({ lf with held := false }, { target := some content, lock := none })
  | none => .error .IoError

/-- Lockfile.rollback is `Lockfile::rollback`: same silently discarded
stale-lock check, then `P.lock` is deleted, surfacing an io error when it
does not exist. -/
def Lockfile.rollback (lf : Lockfile) (fs : FS) : Except NitErr (Lockfile × FS) :=
  match fs.lock with
  | some _ => .ok ({ lf with held := false }, { fs with lock := none })
  | none => .error .IoError

/-- Reader/writer state of the checksumming wrapper from
`src/index/checksum.rs`: the bytes not yet consumed and the bytes fed to
the SHA-1 digest so far. -/
structure RState where
  rem : List Nat
  dig : List Nat
deriving DecidableEq, Repr

/-- Checksum.read is `Checksum::read`: `read_exact` of `size` bytes
(failing with `CouldNotReadFile` when the input is exhausted first), with
the bytes fed to the running digest. -/
def Checksum.read (n : Nat) (st : RState) : Except NitErr (List Nat × RState) :=
  if st.rem.length < n then .error .CouldNotReadFile
  else .ok (st.rem.take n, ⟨st.rem.drop n, st.dig ++ st.rem.take n⟩)

/-- Checksum.verifyChecksum is `Checksum::verify_checksum`: read the
20-byte trailer (not fed to the digest) and fail with `BadChecksum` unless
it equals the digest of every byte read so far. -/
def Checksum.verifyChecksum (H : List Nat → List Nat) (st : RState) : Except NitErr RState :=
  if st.rem.length < 20 then .error .CouldNotReadFile
  else if st.rem.take 20 ≠ H st.dig then .error .BadChecksum
  else .ok ⟨st.rem.drop 20, st.dig⟩

/-- SIGNATURE bytes of the index header. -/
def SIGNATURE : List Nat := [68, 73, 82, 67]

/-- VERSION of the index format. -/
def VERSION : Nat := 2

/-- Index.readHeader is `Index::read_header`: read 12 bytes, split them as
signature, version and entry count, then validate signature and version.
The Rust code first runs the signature bytes through `str::from_utf8`
(whose failure is `BadHeader`); the model compares the bytes directly,
which only differs on non-UTF-8 signatures. -/
def Index.readHeader (st : RState) : Except NitErr (Nat × RState) := do
  let (data, st') ← Checksum.read 12 st
  let signature := data.take 4
  let version := beVal ((data.drop 4).take 4)
  let count := beVal ((data.drop 8).take 4)
  if signature ≠ SIGNATURE then throw (.IncorrectSignature signature)
  else if version ≠ VERSION then throw (.IncorrectVersion version)
  else pure (count, st')

/-- Index.readEntryTail is the `while entry.last().unwrap() != &b'\0'`
loop of `Index::read_entries`: keep reading 8-byte blocks until the bytes
collected so far end in NUL.  The loop is bounded by `fuel` for structural
recursion; the caller passes one more than the remaining input length, and
since every iteration consumes 8 bytes the reads run dry (with the same
`CouldNotReadFile` outcome) strictly before the fuel can. -/
def Index.readEntryTail (fuel : Nat) (acc : List Nat) (st : RState) :
    Except NitErr (List Nat × RState) :=
  match fuel with
  | 0 => .error .CouldNotReadFile
  | fuel + 1 =>
    if acc.getLast? = some 0 then .ok (acc, st)
    else
      match Checksum.read 8 st with
      | .error e => .error e
      | .ok (block, st') => Index.readEntryTail fuel (acc ++ block) st'

/-- Index.readEntryBytes reads one entry's byte block: 64 bytes, then
8-byte blocks until a NUL terminator ends the block. -/
def Index.readEntryBytes (st : RState) : Except NitErr (List Nat × RState) := do
  let (first, st') ← Checksum.read 64 st
  Index.readEntryTail (st'.rem.length + 1) first st'

/-- Index.readEntriesGo is the `for _ in 0..count` loop of
`Index::read_entries`, returning the parsed entries in read order (the
interleaved `store_entry` calls are applied by the caller; they do not
affect the reading). -/
def Index.readEntriesGo (count : Nat) (st : RState) :
    Except NitErr (List Index.Entry × RState) :=
  match count with
  | 0 => .ok ([], st)
  | n + 1 => do
    let (bs, st') ← Index.readEntryBytes st
    let (es, st'') ← Index.readEntriesGo n st'
    pure (Index.Entry.parse bs :: es, st'')

/-- Index.loadPhase1 is the header-and-entries part of `Index::load` on a
present index file, before the checksum verification. -/
def Index.loadPhase1 (bs : List Nat) : Except NitErr (List Index.Entry × RState) := do
  let (count, st) ← Index.readHeader ⟨bs, []⟩
  Index.readEntriesGo count st

/-- Index.loadFromBytes is `Index::load` on a present index file: clear,
read and validate the header, read `count` entries storing each with
`store_entry`, and verify the trailing checksum. -/
def Index.loadFromBytes (H : List Nat → List Nat) (bs : List Nat) : Except NitErr Index := do
  let (es, st) ← Index.loadPhase1 bs
  let _ ← Checksum.verifyChecksum H st
  pure (es.foldl Index.storeEntry Index.new)

/-- Index.load is `Index::load`: an absent index file yields an empty
index, a present one is parsed and checksum-verified.  It never touches
the lockfile. -/
def Index.load (H : List Nat → List Nat) (fs : FS) : Except NitErr Index :=
  match fs.target with
  | none => .ok Index.new
  | some bs => Index.loadFromBytes H bs

/-- Index.loadForUpdate is `Index::load_for_update`, whose body is
literally `self.load()`: the lockfile field and the filesystem are
untouched, so they pass through unchanged. -/
def Index.loadForUpdate (H : List Nat → List Nat) (lf : Lockfile) (fs : FS) :
    Except NitErr (Index × Lockfile × FS) :=
  (Index.load H fs).map (fun ix => (ix, lf, fs))

/-- Header bytes written by `Index::write_updates` for `n` entries
(`(entries.len() as u32).to_be_bytes()`). -/
def Index.headerBytes (n : Nat) : List Nat := SIGNATURE ++ be32 VERSION ++ be32 (u32 n)

/-- Body bytes written by `Index::write_updates`: the entries' byte blocks
in map (path-sorted) order. -/
def Index.bodyBytes (ix : Index) : List Nat :=
  (ix.entries.map (fun kv => kv.2.bytes)).flatten

/-- Header plus body of the serialized index, the bytes over which the
trailing digest is computed. -/
def Index.contentBytes (ix : Index) : List Nat :=
  Index.headerBytes ix.entries.length ++ ix.bodyBytes

/-- Full serialized index file: content plus trailing digest. -/
def indexFileBytes (H : List Nat → List Nat) (ix : Index) : List Nat :=
  ix.contentBytes ++ H ix.contentBytes

/-- Index.writeUpdates is `Index::write_updates`.  Note the source's
control flow: when nothing changed it calls `self.lockfile.rollback()?` —
and then falls through to acquire the lock and write anyway, because the
early return is missing. -/
def Index.writeUpdates (H : List Nat → List Nat) (ix : Index) (lf : Lockfile) (fs : FS) :
    Except NitErr (Index × Lockfile × FS) := do
  let (lf, fs) ← if ix.changed then pure (lf, fs) else Lockfile.rollback lf fs
  let (lf, fs) ← Lockfile.holdForUpdate lf fs
  let fs ← Lockfile.write lf fs (Index.headerBytes ix.entries.length)
  let fs ← Lockfile.write lf fs ix.bodyBytes
  let fs ← Lockfile.write lf fs (H ix.contentBytes)
  let (lf, fs) ← Lockfile.commit lf fs
  pure ({ ix with changed := false }, lf, fs)

/-- Obj models the `Object` trait capability set of `src/database/mod.rs`:
a kind tag byte string and canonical payload bytes. -/
structure Obj where
  kind : List Nat
  data : List Nat
deriving DecidableEq, Repr

/-- ASCII decimal digits of a number (`data.len().to_string()`). -/
def decimalBytes (n : Nat) : List Nat := (Nat.toDigits 10 n).map Char.toNat

/-- Canonical content built by `Database::store`:
kind, space, decimal payload length, NUL, payload. -/
def canonicalContent (o : Obj) : List Nat :=
  o.kind ++ [32] ++ decimalBytes o.data.length ++ [0] ++ o.data

/-- Database models the object store directory: a map from the 20 oid
bytes to the stored file's content.  The sharded path
`objects/hex[0:2]/hex[2:]` is determined by the oid (hex encoding is
injective), so the oid itself is the key. -/
structure Database where
  objects : List (List Nat × List Nat)
deriving DecidableEq, Repr

/-- Database.writeObject is `Database::write_object` with compression
abstracted as `Z`: return immediately when the object path already exists,
otherwise write the compressed content (via temp file and rename). -/
def Database.writeObject (Z : List Nat → List Nat) (db : Database) (oid content : List Nat) :
    Database :=
  if (lookupA oid db.objects).isSome then db
  else { objects := setA oid (Z content) db.objects }

/-- Database.store is `Database::store`: build the canonical content, hash
it (`H` abstracts SHA-1), write the object, return the oid. -/
def Database.store (H Z : List Nat → List Nat) (db : Database) (o : Obj) :
    List Nat × Database :=
  let content := canonicalContent o
  let oid := H content
  (oid, db.writeObject Z oid content)

/-- EntryMode from `src/database/tree.rs`. -/
inductive EntryMode where
  | Executable
  | Regular
deriving DecidableEq, Repr

/-- Tree entry (`Entry` in `src/database/tree.rs`): the name is the
`OsString` built from the full path handed to `Entry::new`. -/
structure Tree.Entry where
  name : List Nat
  oid : List Nat
  mode : EntryMode
deriving DecidableEq, Repr

/-- Tree.Entry.parentDirectories is `Entry::parent_directories` of
`src/database/tree.rs`: the ancestors of `PathBuf::from(&self.name)`. -/
def Tree.Entry.parentDirectories (e : Tree.Entry) : List Path :=
  Nit.parentDirectories (splitPath e.name)

/-- TreeEntry from `src/database/tree.rs`: a nested tree (with the oid
assigned after hashing) or a leaf entry.  A `Tree` value is its sorted
entry map, represented as the association list `List (List Nat × TreeEntry)`. -/
inductive TreeEntry where
  | tree : List (List Nat × TreeEntry) → Option (List Nat) → TreeEntry
  | obj : Tree.Entry → TreeEntry

/-- A Tree value: `BTreeMap<OsString, TreeEntry>` as a sorted association
list keyed by name bytes. -/
abbrev TreeNode := List (List Nat × TreeEntry)

/-- Tree.addEntry is `Tree::add_entry`: with no remaining parent segments,
insert the entry as a leaf keyed by `entry.name` (the full path the entry
was built from); otherwise descend into (or create) the subtree keyed by
the first parent's `file_name()`.  When the slot already holds a leaf the
`if let Tree` match fails and the entry is silently dropped. -/
def Tree.addEntry (t : TreeNode) (parents : List Path) (e : Tree.Entry) : TreeNode :=
  match parents with
  | [] => insA e.name (.obj e) t
  | p :: rest =>
    let key := (p.getLast?).getD []
    match lookupA key t with
    | some (.tree sub oid) => insA key (.tree (Tree.addEntry sub rest e) oid) t
    | some (.obj _) => t
    | none => insA key (.tree (Tree.addEntry [] rest e) none) t

/-- Insertion step of `entries.sort_by(|a, b| a.name.cmp(&b.name))`. -/
def Tree.insertByName (e : Tree.Entry) : List Tree.Entry → List Tree.Entry
  | [] => [e]
  | x :: t => if e.name ≤ x.name then e :: x :: t else x :: Tree.insertByName e t

/-- Tree.build is `Tree::build`: sort the entries by name, then add each
under its parent directory segments. -/
def Tree.build (entries : List Tree.Entry) : TreeNode :=
  (entries.foldr Tree.insertByName []).foldl
    (fun root e => Tree.addEntry root (Tree.Entry.parentDirectories e) e) []

/-- Octal mode byte strings from `src/database/tree.rs`. -/
def REGULAR_MODE_B : List Nat := [49, 48, 48, 54, 52, 52]

/-- EXECUTABLE_MODE as bytes. -/
def EXECUTABLE_MODE_B : List Nat := [49, 48, 48, 55, 53, 53]

/-- DIRECTORY_MODE as bytes. -/
def DIRECTORY_MODE_B : List Nat := [52, 48, 48, 48, 48]

/-- Serialization of one map binding inside `impl Object for Tree`'s
`data`: octal mode, space, the map key's name bytes, NUL, the 20 child oid
bytes.  A nested tree whose oid was never assigned panics through
`.expect(..)` in Rust; the model returns `none` there. -/
def treeEntryData (key : List Nat) : TreeEntry → Option (List Nat)
  | .obj e =>
    some ((match e.mode with
      | .Executable => EXECUTABLE_MODE_B
      | .Regular => REGULAR_MODE_B) ++ [32] ++ key ++ [0] ++ e.oid)
  | .tree _ oidOpt =>
    oidOpt.map (fun oid => DIRECTORY_MODE_B ++ [32] ++ key ++ [0] ++ oid)

/-- treeData is `Tree`'s `Object::data`: concatenate the serialized
bindings in map (name-sorted) order. -/
def treeData (t : TreeNode) : Option (List Nat) :=
  t.foldr (fun kv acc => do pure ((← treeEntryData kv.1 kv.2) ++ (← acc))) (some [])

/-- Constant stand-in digest function used to instantiate the abstract
hash `H` in concrete evaluations: every digest is 20 zero bytes. -/
def H0 : List Nat → List Nat := fun _ => List.replicate 20 0

/-- All-zero metadata used in concrete evaluations. -/
def stat0 : Stat := ⟨0, 0, 0, 0, 0, 0, 0, 0, 0, 0⟩

/-- A fixed 20-byte oid used in concrete evaluations. -/
def oid0 : List Nat := List.replicate 20 1

/-- TreeShape is the tree-shape invariant of the specification: no stored
entry's path is a proper component-wise prefix of another stored entry's
path. -/
def TreeShape (ix : Index) : Prop :=
  ∀ kv ∈ ix.entries, ∀ kw ∈ ix.entries, ¬ Ancestor kv.1 kw.1

/-- coverInv is the coupling between the two maps of the index: every
stored entry path is registered in the parents set of each of its ancestor
directories.  (The converse does not hold: `discard_conflicts` removes
ancestor entries without cleaning the parents map, so the sets may carry
stale paths.) -/
def coverInv (ix : Index) : Prop :=
  ∀ kv ∈ ix.entries, ∀ d ∈ parentDirectories kv.1,
    ∃ s, lookupA d ix.parents = some s ∧ kv.1 ∈ s

/-- pathsKeyInv: every entry is stored under its own path. -/
def pathsKeyInv (ix : Index) : Prop :=
  ∀ kv ∈ ix.entries, kv.2.path = kv.1

/-- neInv: no stored entry has the empty path. -/
def neInv (ix : Index) : Prop :=
  ∀ kv ∈ ix.entries, kv.1 ≠ ([] : Path)

/-- Inv bundles the invariants of the index state maintained by `add`. -/
structure Inv (ix : Index) : Prop where
  pathsKey : pathsKeyInv ix
  ne : neInv ix
  cover : coverInv ix
  shape : TreeShape ix

/-! Association-list lemmas. -/

theorem lookupA_mem {α β : Type} [DecidableEq α] {k : α} {v : β} :
    ∀ {l : List (α × β)}, lookupA k l = some v → (k, v) ∈ l := by
  intro l
  induction l with
  | nil => intro h; simp [lookupA] at h
  | cons kv t ih =>
    obtain ⟨a, b⟩ := kv
    intro h
    rw [lookupA] at h
    by_cases hk : a = k
    · subst hk
      rw [if_pos rfl] at h
      have hb := Option.some.inj h
      subst hb
      exact List.mem_cons_self _ _
    · rw [if_neg hk] at h
      exact List.mem_cons_of_mem _ (ih h)

theorem lookupA_eq_none {α β : Type} [DecidableEq α] {k : α} {l : List (α × β)} :
    lookupA k l = none ↔ ∀ v, (k, v) ∉ l := by
  induction l with
  | nil => simp [lookupA]
  | cons kv t ih =>
    obtain ⟨a, b⟩ := kv
    rw [lookupA]
    by_cases hk : a = k
    · subst hk
      rw [if_pos rfl]
      constructor
      · intro h; cases h
      · intro h; exact absurd (List.mem_cons_self _ _) (h b)
    · rw [if_neg hk, ih]
      constructor
      · intro h v hv
        rcases List.mem_cons.1 hv with h1 | h1
        · injection h1 with h1a h1b
          exact absurd h1a.symm hk
        · exact h v h1
      · intro h v hv
        exact h v (List.mem_cons_of_mem _ hv)

theorem mem_eraseA {α β : Type} [DecidableEq α] {kv : α × β} {k : α} {l : List (α × β)} :
    kv ∈ eraseA k l ↔ kv ∈ l ∧ kv.1 ≠ k := by
  simp [eraseA, List.mem_filter]

theorem lookupA_eraseA_ne {α β : Type} [DecidableEq α] {k' k : α} (h : k' ≠ k) :
    ∀ {l : List (α × β)}, lookupA k' (eraseA k l) = lookupA k' l := by
  intro l
  induction l with
  | nil => rfl
  | cons kv t ih =>
    obtain ⟨a, b⟩ := kv
    rw [eraseA, List.filter_cons]
    by_cases hk : a = k
    · subst hk
      rw [if_neg (by simp)]
      rw [show lookupA k' ((a, b) :: t) = lookupA k' t by
        rw [lookupA, if_neg (fun hh => h hh.symm)]]
      exact ih
    · rw [if_pos (by simp [hk])]
      rw [lookupA, lookupA]
      by_cases hk' : a = k'
      · rw [if_pos hk', if_pos hk']
      · rw [if_neg hk', if_neg hk']
        exact ih

theorem lookupA_setA_self {α β : Type} [DecidableEq α] {k : α} {v : β} {l : List (α × β)} :
    lookupA k (setA k v l) = some v := by
  rw [setA, lookupA, if_pos rfl]

theorem lookupA_setA_ne {α β : Type} [DecidableEq α] {k' k : α} {v : β} {l : List (α × β)}
    (h : k' ≠ k) : lookupA k' (setA k v l) = lookupA k' l := by
  rw [setA, lookupA, if_neg (fun hh => h hh.symm)]
  exact lookupA_eraseA_ne h

theorem mem_insOrd {α β : Type} [LinearOrder α] {kv : α × β} {k : α} {v : β} :
    ∀ {l : List (α × β)}, kv ∈ insOrd k v l ↔ kv = (k, v) ∨ kv ∈ l := by
  intro l
  induction l with
  | nil => simp [insOrd]
  | cons kw t ih =>
    obtain ⟨a, b⟩ := kw
    rw [insOrd]
    by_cases hlt : k < a
    · rw [if_pos hlt]; simp
    · rw [if_neg hlt]
      simp only [List.mem_cons, ih]
      tauto

theorem mem_insA {α β : Type} [DecidableEq α] [LinearOrder α] {kv : α × β} {k : α} {v : β}
    {l : List (α × β)} : kv ∈ insA k v l ↔ kv = (k, v) ∨ (kv ∈ l ∧ kv.1 ≠ k) := by
  rw [insA, mem_insOrd, mem_eraseA]

theorem insOrd_append_gt {α β : Type} [LinearOrder α] {k : α} {v : β} :
    ∀ {l : List (α × β)}, (∀ kv ∈ l, kv.1 < k) → insOrd k v l = l ++ [(k, v)] := by
  intro l
  induction l with
  | nil => intro _; rfl
  | cons kw t ih =>
    obtain ⟨a, b⟩ := kw
    intro h
    rw [insOrd, if_neg (not_lt_of_gt (h (a, b) (by simp)))]
    rw [ih (fun kv hkv => h kv (List.mem_cons_of_mem _ hkv))]
    rfl

theorem eraseA_eq_of_ne {α β : Type} [DecidableEq α] {k : α} {l : List (α × β)}
    (h : ∀ kv ∈ l, kv.1 ≠ k) : eraseA k l = l :=
  List.filter_eq_self.2 (fun kv hkv => by simpa using h kv hkv)

theorem mem_removeSet {α : Type} [DecidableEq α] {x y : α} {s : List α} :
    x ∈ removeSet y s ↔ x ∈ s ∧ x ≠ y := by
  simp [removeSet, List.mem_filter]

theorem mem_insertSet {α : Type} [DecidableEq α] {x y : α} {s : List α} :
    x ∈ insertSet y s ↔ x = y ∨ x ∈ s := by
  rw [insertSet]
  by_cases h : y ∈ s
  · rw [if_pos h]
    constructor
    · exact Or.inr
    · rintro (rfl | hx)
      · exact h
      · exact hx
  · rw [if_neg h]
    simp

/-! Path lemmas. -/

theorem mem_parentDirectories {d p : Path} :
    d ∈ parentDirectories p ↔ Ancestor d p ∧ d ≠ [] := by
  rw [parentDirectories]
  constructor
  · intro h
    rcases List.mem_map.1 h with ⟨i, hi, rfl⟩
    have hi' : 1 ≤ i ∧ i < p.length := by
      rcases Nat.eq_zero_or_pos p.length with h0 | h0
      · rw [h0] at hi; simp at hi
      · obtain ⟨m, hm⟩ := Nat.exists_eq_add_of_lt h0
        rw [show p.length = m + 1 by omega, List.range_succ_eq_map] at hi
        simp only [List.drop_succ_cons, List.drop_zero, List.mem_map, List.mem_range] at hi
        obtain ⟨j, hj, rfl⟩ := hi
        omega
    have hlen : (p.take i).length = i := by
      rw [List.length_take]; omega
    refine ⟨⟨?_, ?_⟩, ?_⟩
    · rw [hlen]; exact hi'.2
    · rw [hlen]
    · intro hnil
      rw [hnil] at hlen
      simp at hlen
      omega
  · rintro ⟨⟨hlt, htake⟩, hne⟩
    refine List.mem_map.2 ⟨d.length, ?_, htake⟩
    have h1 : 1 ≤ d.length := by
      cases d with
      | nil => exact absurd rfl hne
      | cons a t => simp
    rcases Nat.exists_eq_add_of_lt (show 0 < p.length by omega) with ⟨m, hm⟩
    rw [show p.length = m + 1 by omega, List.range_succ_eq_map]
    simp only [List.drop_succ_cons, List.drop_zero, List.mem_map, List.mem_range]
    exact ⟨d.length - 1, by omega, by omega⟩

theorem ancestor_irrefl (p : Path) : ¬ Ancestor p p := by
  rintro ⟨h, -⟩
  exact lt_irrefl _ h

theorem parentDirectories_nodup (p : Path) : (parentDirectories p).Nodup := by
  rw [parentDirectories]
  refine List.Nodup.map_on ?_ (((List.nodup_range _).sublist (List.drop_sublist _ _)))
  intro i hi j hj hij
  have hi' : i ≤ p.length := le_of_lt (List.mem_range.1 (List.mem_of_mem_drop hi))
  have hj' : j ≤ p.length := le_of_lt (List.mem_range.1 (List.mem_of_mem_drop hj))
  have : (p.take i).length = (p.take j).length := by rw [hij]
  rw [List.length_take, List.length_take] at this
  omega

theorem mem_pathBytes {b : Nat} {p : Path} (h : b ∈ pathBytes p) :
    b = 47 ∨ ∃ c ∈ p, b ∈ c := by
  rw [pathBytes] at h
  induction p with
  | nil => simp [List.intercalate] at h
  | cons c t ih =>
    cases t with
    | nil =>
      simp [List.intercalate] at h
      exact Or.inr ⟨c, by simp, h⟩
    | cons d t2 =>
      rw [show List.intercalate [47] (c :: d :: t2) =
          c ++ [47] ++ List.intercalate [47] (d :: t2) by
        simp [List.intercalate, List.intersperse]] at h
      simp only [List.append_assoc, List.mem_append, List.mem_singleton] at h
      rcases h with h | h | h
      · exact Or.inr ⟨c, by simp, h⟩
      · exact Or.inl h
      · rcases ih h with h2 | ⟨c2, hc2, hb⟩
        · exact Or.inl h2
        · exact Or.inr ⟨c2, by simp [hc2], hb⟩

theorem zero_not_mem_pathBytes {p : Path} (h : ∀ c ∈ p, (0 : Nat) ∉ c) :
    (0 : Nat) ∉ pathBytes p := by
  intro h0
  rcases mem_pathBytes h0 with h1 | ⟨c, hc, h1⟩
  · omega
  · exact h c hc h1

/-! Lemmas about `Index.storeEntry`. -/

theorem mem_storeEntry_entries {ix : Index} {e : Index.Entry} {kv : Path × Index.Entry} :
    kv ∈ (ix.storeEntry e).entries ↔ kv = (e.path, e) ∨ (kv ∈ ix.entries ∧ kv.1 ≠ e.path) := by
  rw [Index.storeEntry]
  exact mem_insA

theorem foldl_setA_lookup_unchanged {p : Path} {d : Path} :
    ∀ {dirs : List Path}, d ∉ dirs → ∀ m,
      lookupA d (dirs.foldl
        (fun m d' => setA d' (insertSet p ((lookupA d' m).getD [])) m) m) = lookupA d m := by
  intro dirs
  induction dirs with
  | nil => intro _ m; rfl
  | cons d0 rest ih =>
    intro h m
    rw [List.foldl_cons]
    rw [ih (fun hh => h (List.mem_cons_of_mem _ hh))]
    exact lookupA_setA_ne (fun hh => h (hh ▸ List.mem_cons_self _ _))

theorem storeEntry_cover_new {p : Path} :
    ∀ {dirs : List Path}, dirs.Nodup → ∀ m, ∀ d ∈ dirs,
      ∃ s, lookupA d (dirs.foldl
        (fun m d' => setA d' (insertSet p ((lookupA d' m).getD [])) m) m) = some s ∧ p ∈ s := by
  intro dirs
  induction dirs with
  | nil => intro _ m d hd; cases hd
  | cons d0 rest ih =>
    intro hnd m d hd
    rw [List.foldl_cons]
    rcases List.mem_cons.1 hd with rfl | hd'
    · rw [foldl_setA_lookup_unchanged (List.nodup_cons.1 hnd).1]
      exact ⟨insertSet p ((lookupA d m).getD []), lookupA_setA_self,
        mem_insertSet.2 (Or.inl rfl)⟩
    · exact ih (List.nodup_cons.1 hnd).2 _ d hd'

theorem storeEntry_cover_mono {p q : Path} {d : Path} :
    ∀ {dirs : List Path} (m), (∃ s, lookupA d m = some s ∧ q ∈ s) →
      ∃ s', lookupA d (dirs.foldl
        (fun m d' => setA d' (insertSet p ((lookupA d' m).getD [])) m) m) = some s' ∧ q ∈ s' := by
  intro dirs
  induction dirs with
  | nil => intro m h; exact h
  | cons d0 rest ih =>
    rintro m ⟨s, hs, hq⟩
    rw [List.foldl_cons]
    apply ih
    by_cases hdd : d = d0
    · subst hdd
      refine ⟨insertSet p ((lookupA d m).getD []), lookupA_setA_self, ?_⟩
      rw [hs]
      exact mem_insertSet.2 (Or.inr hq)
    · exact ⟨s, by rw [lookupA_setA_ne hdd]; exact hs, hq⟩

/-! Lemmas about `Index.removeDirs` / `Index.removeEntry` / `Index.removeChildren`. -/

theorem removeDirs_complete {p : Path} :
    ∀ {dirs : List Path} {m}, dirs.Nodup → (∀ d ∈ dirs, (lookupA d m).isSome) →
      (Index.removeDirs p dirs m).2 = true := by
  intro dirs
  induction dirs with
  | nil => intro m _ _; rfl
  | cons d0 rest ih =>
    intro m hnd hsome
    have h0 := hsome d0 (List.mem_cons_self _ _)
    rw [Index.removeDirs]
    split
    · next hl => rw [hl] at h0; cases h0
    · next s hl =>
      apply ih (List.nodup_cons.1 hnd).2
      intro d hd
      have hne : d ≠ d0 := fun hh => (List.nodup_cons.1 hnd).1 (hh ▸ hd)
      by_cases hE : (removeSet p s).isEmpty
      · rw [if_pos hE, lookupA_eraseA_ne hne]
        exact hsome d (List.mem_cons_of_mem _ hd)
      · rw [if_neg hE, lookupA_setA_ne hne]
        exact hsome d (List.mem_cons_of_mem _ hd)

theorem removeDirs_mono {p q : Path} (hq : q ≠ p) {d : Path} :
    ∀ (dirs : List Path) (m : List (Path × List Path)),
      (∃ s, lookupA d m = some s ∧ q ∈ s) →
      ∃ s', lookupA d (Index.removeDirs p dirs m).1 = some s' ∧ q ∈ s' := by
  intro dirs
  induction dirs with
  | nil => intro m h; exact h
  | cons d0 rest ih =>
    rintro m ⟨s, hs, hqs⟩
    rw [Index.removeDirs]
    split
    · next => exact ⟨s, hs, hqs⟩
    · next s0 hl =>
      apply ih
      by_cases hdd : d = d0
      · subst hdd
        have hss : s0 = s := by rw [hl] at hs; exact Option.some.inj hs
        subst hss
        have hmem : q ∈ removeSet p s0 := mem_removeSet.2 ⟨hqs, hq⟩
        have hE : ¬ (removeSet p s0).isEmpty := by
          intro hE
          rw [List.isEmpty_iff] at hE
          rw [hE] at hmem
          cases hmem
        rw [if_neg hE]
        exact ⟨removeSet p s0, lookupA_setA_self, hmem⟩
      · by_cases hE : (removeSet p s0).isEmpty
        · rw [if_pos hE]
          exact ⟨s, by rw [lookupA_eraseA_ne hdd]; exact hs, hqs⟩
        · rw [if_neg hE]
          exact ⟨s, by rw [lookupA_setA_ne hdd]; exact hs, hqs⟩

theorem removeEntry_entries {ix : Index} {p : Path}
    (hpk : pathsKeyInv ix) (hcov : coverInv ix) (kv : Path × Index.Entry) :
    kv ∈ (ix.removeEntry p).entries ↔ kv ∈ ix.entries ∧ kv.1 ≠ p := by
  rw [Index.removeEntry]
  split
  · next hl =>
    constructor
    · intro h
      refine ⟨h, fun hh => ?_⟩
      have hkv : kv = (p, kv.2) := by rw [← hh]
      exact lookupA_eq_none.1 hl kv.2 (hkv ▸ h)
    · exact fun h => h.1
  · next e hl =>
    have hep : e.path = p := hpk (p, e) (lookupA_mem hl)
    have hdone : (Index.removeDirs e.path (parentDirectories e.path) ix.parents).2 = true := by
      apply removeDirs_complete (parentDirectories_nodup _)
      intro d hd
      obtain ⟨s, hs, -⟩ := hcov (p, e) (lookupA_mem hl) d (by rw [hep] at hd; exact hd)
      rw [hs]; rfl
    split
    · next m' done hmatch => exact mem_eraseA
    · next m' done hmatch =>
      rw [hmatch] at hdone
      cases hdone

theorem removeEntry_entries_subset {ix : Index} {p : Path} {kv : Path × Index.Entry} :
    kv ∈ (ix.removeEntry p).entries → kv ∈ ix.entries := by
  rw [Index.removeEntry]
  split
  · exact id
  · next e hl =>
    split
    · exact fun h => (mem_eraseA.1 h).1
    · exact id

theorem removeEntry_parents_mono {ix : Index} {p q d : Path} (hq : q ≠ p)
    (hpk : pathsKeyInv ix) :
    (∃ s, lookupA d ix.parents = some s ∧ q ∈ s) →
    ∃ s', lookupA d (ix.removeEntry p).parents = some s' ∧ q ∈ s' := by
  intro h
  rw [Index.removeEntry]
  split
  · next => exact h
  · next e hl =>
    have hep : e.path = p := hpk (p, e) (lookupA_mem hl)
    have hmono := removeDirs_mono (p := e.path) (q := q) (by rw [hep]; exact hq)
      (parentDirectories e.path) ix.parents h
    split
    · next m' done hmatch => rw [hmatch] at hmono; exact hmono
    · next m' done hmatch => rw [hmatch] at hmono; exact hmono

theorem foldl_removeEntry (children : List Path) :
    ∀ {ix : Index}, pathsKeyInv ix → coverInv ix →
      pathsKeyInv (children.foldl Index.removeEntry ix) ∧
      coverInv (children.foldl Index.removeEntry ix) ∧
      (∀ kv, kv ∈ (children.foldl Index.removeEntry ix).entries ↔
        kv ∈ ix.entries ∧ kv.1 ∉ children) := by
  induction children with
  | nil =>
    intro ix hpk hcov
    exact ⟨hpk, hcov, fun kv => by simp⟩
  | cons c rest ih =>
    intro ix hpk hcov
    have hmem1 := removeEntry_entries (p := c) hpk hcov
    have hpk1 : pathsKeyInv (ix.removeEntry c) :=
      fun kv hkv => hpk kv (removeEntry_entries_subset hkv)
    have hcov1 : coverInv (ix.removeEntry c) := by
      intro kv hkv d hd
      obtain ⟨hkv0, hne⟩ := (hmem1 kv).1 hkv
      exact removeEntry_parents_mono hne hpk (hcov kv hkv0 d hd)
    obtain ⟨ha, hb, hc⟩ := ih hpk1 hcov1
    refine ⟨ha, hb, fun kv => ?_⟩
    rw [List.foldl_cons, hc kv, hmem1 kv]
    simp only [List.mem_cons]
    tauto

/-! Lemmas about `Index.discardConflicts` and `Index.add`. -/

theorem foldl_eraseA_mem {β : Type} {kv : Path × β} :
    ∀ {dirs : List Path} {es : List (Path × β)},
      kv ∈ dirs.foldl (fun es d => eraseA d es) es ↔ kv ∈ es ∧ kv.1 ∉ dirs := by
  intro dirs
  induction dirs with
  | nil => intro es; simp
  | cons d0 rest ih =>
    intro es
    rw [List.foldl_cons, ih, mem_eraseA]
    simp only [List.mem_cons]
    tauto

/-- Specification of `discard_conflicts` under the index invariants: the
result keeps the invariants, shrinks the entry set, and leaves no entry at
an ancestor of the new path nor nested strictly below it. -/
theorem discardConflicts_spec {ix : Index} {e : Index.Entry}
    (hpk : pathsKeyInv ix) (hne : neInv ix) (hcov : coverInv ix) (hep : e.path ≠ []) :
    pathsKeyInv (ix.discardConflicts e) ∧ coverInv (ix.discardConflicts e) ∧
    (∀ kv ∈ (ix.discardConflicts e).entries, kv ∈ ix.entries) ∧
    (∀ kv ∈ (ix.discardConflicts e).entries, ¬ Ancestor kv.1 e.path) ∧
    (∀ kv ∈ (ix.discardConflicts e).entries, ¬ Ancestor e.path kv.1) := by
  rw [Index.discardConflicts]
  set ix1 : Index :=
    { ix with entries :=
        (Index.Entry.parentDirectories e).foldl (fun es d => eraseA d es) ix.entries }
    with hix1
  have hmem1 : ∀ kv : Path × Index.Entry,
      kv ∈ ix1.entries ↔ kv ∈ ix.entries ∧ kv.1 ∉ parentDirectories e.path := by
    intro kv
    rw [hix1]
    exact foldl_eraseA_mem
  have hpk1 : pathsKeyInv ix1 := fun kv hkv => hpk kv ((hmem1 kv).1 hkv).1
  have hcov1 : coverInv ix1 := by
    intro kv hkv d hd
    exact hcov kv ((hmem1 kv).1 hkv).1 d hd
  rw [Index.removeChildren]
  split
  · next hl =>
    refine ⟨hpk1, hcov1, fun kv hkv => ((hmem1 kv).1 hkv).1, fun kv hkv hanc => ?_,
      fun kv hkv hanc => ?_⟩
    · have h1 := (hmem1 kv).1 hkv
      exact h1.2 (mem_parentDirectories.2 ⟨hanc, hne kv h1.1⟩)
    · obtain ⟨s, hs, -⟩ := hcov1 kv hkv e.path (mem_parentDirectories.2 ⟨hanc, hep⟩)
      rw [hl] at hs
      cases hs
  · next children hl =>
    obtain ⟨ha, hb, hc⟩ := foldl_removeEntry children hpk1 hcov1
    refine ⟨ha, hb, fun kv hkv => ((hmem1 kv).1 ((hc kv).1 hkv).1).1,
      fun kv hkv hanc => ?_, fun kv hkv hanc => ?_⟩
    · have h1 := (hmem1 kv).1 ((hc kv).1 hkv).1
      exact h1.2 (mem_parentDirectories.2 ⟨hanc, hne kv h1.1⟩)
    · obtain ⟨hkv1, hnotin⟩ := (hc kv).1 hkv
      obtain ⟨s, hs, hmem⟩ := hcov1 kv hkv1 e.path (mem_parentDirectories.2 ⟨hanc, hep⟩)
      rw [hl] at hs
      have := Option.some.inj hs
      subst this
      exact hnotin hmem

/-- The path of a freshly constructed entry is the argument path. -/
theorem entry_new_path (p : Path) (oid : List Nat) (st : Stat) :
    (Index.Entry.new p oid st).path = p := rfl

/-- Index.add preserves the index invariants when the added path is
nonempty. -/
theorem add_inv {ix : Index} (hInv : Inv ix) {p : Path} {oid : List Nat} {st : Stat}
    (hp : p ≠ []) : Inv (ix.add p oid st) := by
  rw [Index.add]
  set e := Index.Entry.new p oid st with he
  have hepath : e.path = p := rfl
  have hep : e.path ≠ [] := by rw [hepath]; exact hp
  obtain ⟨hpk1, hcov1, hsub, hnoanc, hnodesc⟩ :=
    discardConflicts_spec hInv.pathsKey hInv.ne hInv.cover hep
  set dc := ix.discardConflicts e with hdc
  have hmemF : ∀ kv : Path × Index.Entry,
      kv ∈ (dc.storeEntry e).entries ↔ kv = (e.path, e) ∨ (kv ∈ dc.entries ∧ kv.1 ≠ e.path) :=
    fun kv => mem_storeEntry_entries
  constructor
  · intro kv hkv
    rcases (hmemF kv).1 hkv with rfl | ⟨h1, -⟩
    · rfl
    · exact hpk1 kv h1
  · intro kv hkv
    rcases (hmemF kv).1 hkv with rfl | ⟨h1, -⟩
    · exact hep
    · exact hInv.ne kv (hsub kv h1)
  · intro kv hkv d hd
    rw [Index.storeEntry]
    rcases (hmemF kv).1 hkv with rfl | ⟨h1, -⟩
    · exact storeEntry_cover_new (parentDirectories_nodup e.path) dc.parents d hd
    · exact storeEntry_cover_mono dc.parents (hcov1 kv h1 d hd)
  · intro kv hkv kw hkw
    rcases (hmemF kv).1 hkv with rfl | ⟨h1, hne1⟩ <;>
      rcases (hmemF kw).1 hkw with rfl | ⟨h2, hne2⟩
    · exact ancestor_irrefl e.path
    · exact hnodesc kw h2
    · exact hnoanc kv h1
    · exact hInv.shape kv (hsub kv h1) kw (hsub kw h2)

/-- The empty index satisfies the invariants. -/
theorem inv_new : Inv Index.new := by
  constructor <;> intro kv hkv <;> cases hkv

/-- Index.addMany preserves the invariants when every added path is
nonempty. -/
theorem addMany_inv {ops : List (Path × List Nat × Stat)} :
    ∀ {ix : Index}, Inv ix → (∀ op ∈ ops, op.1 ≠ []) → Inv (ix.addMany ops) := by
  induction ops with
  | nil => intro ix h _; exact h
  | cons op rest ih =>
    intro ix h hops
    rw [Index.addMany, List.foldl_cons]
    exact ih (add_inv h (hops op (List.mem_cons_self _ _)))
      (fun op' hop' => hops op' (List.mem_cons_of_mem _ hop'))

/-- C1, counterexample to the claim as stated: `Index.add` accepts the
empty path, and adding the empty path and then the single-component path
`a` leaves both tracked, although the empty path is a proper component
prefix (an ancestor) of `a`.  So after this sequence of `add` calls two
distinct stored entries do stand in the ancestor relation. -/
theorem c1_counterexample :
    (Index.new.addMany [([], oid0, stat0), ([[97]], oid0, stat0)]).entries.map Prod.fst =
      [[], [[97]]] ∧
    Ancestor ([] : Path) [[97]] ∧ ([] : Path) ≠ [[97]] := by
  refine ⟨by decide, by decide, by decide⟩

/-- C1, amended: after any sequence of `Index.add` calls with nonempty
paths starting from the empty index, no stored entry's path is an ancestor
(proper component prefix) of another stored entry's path; and in
particular adding `a/b.txt` then `a` leaves only `a` tracked, while adding
`a` then `a/b.txt` leaves only `a/b.txt` tracked. -/
theorem c1_tree_shape :
    (∀ ops : List (Path × List Nat × Stat), (∀ op ∈ ops, op.1 ≠ []) →
      TreeShape (Index.new.addMany ops)) ∧
    (Index.new.addMany
      [([[97], [98, 46, 116, 120, 116]], oid0, stat0),
       ([[97]], oid0, stat0)]).entries.map Prod.fst = [[[97]]] ∧
    (Index.new.addMany
      [([[97]], oid0, stat0),
       ([[97], [98, 46, 116, 120, 116]], oid0, stat0)]).entries.map Prod.fst =
      [[[97], [98, 46, 116, 120, 116]]] := by
  exact ⟨fun ops hops => (addMany_inv inv_new hops).shape, by decide, by decide⟩

/-- C1, witness: the amended theorem applied to a concrete two-file add
sequence. -/
theorem c1_tree_shape_witness :
    (∀ op ∈ [(([[97]] : Path), oid0, stat0), (([[98]] : Path), oid0, stat0)],
      op.1 ≠ ([] : Path)) ∧
    TreeShape (Index.new.addMany [([[97]], oid0, stat0), ([[98]], oid0, stat0)]) :=
  ⟨by decide, c1_tree_shape.1 _ (by decide)⟩

/-! Bit lemmas for the entry mode (claim C9). -/

theorem testBit_73 (i : Nat) : Nat.testBit 73 i = true ↔ (i = 0 ∨ i = 3 ∨ i = 6) := by
  constructor
  · intro ht
    rcases lt_or_ge i 7 with hlt | hge
    · interval_cases i <;> revert ht <;> decide
    · have hf : Nat.testBit 73 i = false :=
        Nat.testBit_lt_two_pow
          (lt_of_lt_of_le (by norm_num) (Nat.pow_le_pow_right (by norm_num) hge))
      rw [hf] at ht
      cases ht
  · rintro (rfl | rfl | rfl) <;> decide

theorem and73_testBit_false {m : Nat} (hz : m &&& 73 = 0) {j : Nat}
    (hj : Nat.testBit 73 j = true) : m.testBit j = false := by
  have h2 : (m &&& 73).testBit j = false := by rw [hz]; exact Nat.zero_testBit j
  rw [Nat.testBit_and, hj, Bool.and_true] at h2
  exact h2

theorem isExecutable_iff (m : Nat) :
    isExecutable m = true ↔ (m.testBit 6 ∨ m.testBit 3 ∨ m.testBit 0) := by
  have h111 : (0o111 : Nat) = 73 := by norm_num
  rw [isExecutable, h111, bne_iff_ne]
  constructor
  · intro h
    by_contra hno
    push_neg at hno
    apply h
    apply Nat.eq_of_testBit_eq
    intro i
    rw [Nat.testBit_and, Nat.zero_testBit]
    by_cases h73 : Nat.testBit 73 i = true
    · rcases (testBit_73 i).1 h73 with rfl | rfl | rfl
      · rw [h73, Bool.and_true]
        exact Bool.eq_false_iff.2 hno.2.2
      · rw [h73, Bool.and_true]
        exact Bool.eq_false_iff.2 hno.2.1
      · rw [h73, Bool.and_true]
        exact Bool.eq_false_iff.2 hno.1
    · rw [Bool.not_eq_true] at h73
      rw [h73, Bool.and_false]
  · rintro (h | h | h) hz
    · rw [and73_testBit_false hz (by decide)] at h
      exact Bool.noConfusion h
    · rw [and73_testBit_false hz (by decide)] at h
      exact Bool.noConfusion h
    · rw [and73_testBit_false hz (by decide)] at h
      exact Bool.noConfusion h

/-- C9, counterexample to the claim as stated: for metadata whose
permission mode has only the other-execute bit set (mode `0o100001`), the
owner-execute bit (bit 6 of the mode) is clear, yet `Entry::new` derives
the executable mode `0o100755`. -/
theorem c9_counterexample :
    (Index.Entry.new [[97]] oid0 { stat0 with mode := 0o100001 }).mode = EXECUTABLE_MODE ∧
    Nat.testBit 0o100001 6 = false := by
  refine ⟨by decide, by decide⟩

/-- C9, amended: the entry mode is `executable` (0o100755) exactly when at
least one of the three execute permission bits — owner (bit 6), group
(bit 3) or other (bit 0) — of the file's mode is set (`mode & 0o111 != 0`),
and `regular` (0o100644) otherwise. -/
theorem c9_mode (p : Path) (oid : List Nat) (st : Stat) :
    ((Index.Entry.new p oid st).mode = EXECUTABLE_MODE ↔
      (st.mode.testBit 6 ∨ st.mode.testBit 3 ∨ st.mode.testBit 0)) ∧
    ((Index.Entry.new p oid st).mode = REGULAR_MODE ↔
      ¬ (st.mode.testBit 6 ∨ st.mode.testBit 3 ∨ st.mode.testBit 0)) := by
  have hmode : (Index.Entry.new p oid st).mode =
      if isExecutable st.mode then EXECUTABLE_MODE else REGULAR_MODE := rfl
  by_cases h : isExecutable st.mode
  · have h2 := (isExecutable_iff st.mode).1 h
    rw [hmode, if_pos h]
    exact ⟨⟨fun _ => h2, fun _ => rfl⟩, ⟨fun hh => absurd hh (by decide), fun hh => absurd h2 hh⟩⟩
  · have h2 : ¬ (st.mode.testBit 6 ∨ st.mode.testBit 3 ∨ st.mode.testBit 0) :=
      fun hr => h ((isExecutable_iff st.mode).2 hr)
    rw [hmode, if_neg h]
    exact ⟨⟨fun hh => absurd hh (by decide), fun hh => absurd hh h2⟩, ⟨fun _ => h2, fun _ => rfl⟩⟩

/-- C5: storing two objects with identical canonical content yields the
same ObjectId — the digest of `kind ++ " " ++ decimal-length ++ NUL ++
payload` — and the second store, whose object file already exists, leaves
the database untouched (no write). -/
theorem c5_store_idempotent (H Z : List Nat → List Nat) (db : Database) (o1 o2 : Obj)
    (hc : canonicalContent o1 = canonicalContent o2) :
    (Database.store H Z db o1).1 =
      H (o1.kind ++ [32] ++ decimalBytes o1.data.length ++ [0] ++ o1.data) ∧
    (Database.store H Z (Database.store H Z db o1).2 o2).1 = (Database.store H Z db o1).1 ∧
    (Database.store H Z (Database.store H Z db o1).2 o2).2 = (Database.store H Z db o1).2 := by
  have hsome : (lookupA (H (canonicalContent o1))
      (Database.writeObject Z db (H (canonicalContent o1)) (canonicalContent o1)).objects).isSome := by
    rw [Database.writeObject]
    split
    · next hp => exact hp
    · next hp =>
      show (lookupA (H (canonicalContent o1))
        (setA (H (canonicalContent o1)) (Z (canonicalContent o1)) db.objects)).isSome
      rw [lookupA_setA_self]
      rfl
  refine ⟨?_, ?_, ?_⟩
  · rw [Database.store, canonicalContent]
  · rw [Database.store, Database.store, ← hc]
  · have hdb1 : (Database.store H Z db o1).2 =
        Database.writeObject Z db (H (canonicalContent o1)) (canonicalContent o1) := rfl
    show Database.writeObject Z (Database.store H Z db o1).2 (H (canonicalContent o2))
        (canonicalContent o2) = (Database.store H Z db o1).2
    rw [hdb1, ← hc, Database.writeObject, if_pos hsome]

/-- C5, witness: storing the same blob object twice concretely. -/
theorem c5_store_idempotent_witness :
    canonicalContent ⟨[98, 108, 111, 98], [104, 105]⟩ =
      canonicalContent ⟨[98, 108, 111, 98], [104, 105]⟩ ∧
    ((Database.store H0 id ⟨[]⟩ ⟨[98, 108, 111, 98], [104, 105]⟩).1 =
      H0 ([98, 108, 111, 98] ++ [32] ++ decimalBytes 2 ++ [0] ++ [104, 105]) ∧
    (Database.store H0 id (Database.store H0 id ⟨[]⟩ ⟨[98, 108, 111, 98], [104, 105]⟩).2
      ⟨[98, 108, 111, 98], [104, 105]⟩).1 =
      (Database.store H0 id ⟨[]⟩ ⟨[98, 108, 111, 98], [104, 105]⟩).1 ∧
    (Database.store H0 id (Database.store H0 id ⟨[]⟩ ⟨[98, 108, 111, 98], [104, 105]⟩).2
      ⟨[98, 108, 111, 98], [104, 105]⟩).2 =
      (Database.store H0 id ⟨[]⟩ ⟨[98, 108, 111, 98], [104, 105]⟩).2) :=
  ⟨rfl, c5_store_idempotent H0 id ⟨[]⟩ _ _ rfl⟩

/-- C8: on a filesystem with no lock file, a first guard's
`hold_for_update` succeeds and creates `P.lock`; a second distinct guard
for the same path then fails with `LockDenied(P.lock)`; after the first
guard's `rollback` deletes `P.lock`, a third fresh attempt succeeds. -/
theorem c8_lock_scenario :
    Lockfile.holdForUpdate (Lockfile.new [105, 110, 100, 101, 120]) ⟨some [9], none⟩ =
      .ok (⟨[105, 110, 100, 101, 120] ++ lockExt, true⟩, ⟨some [9], some []⟩) ∧
    Lockfile.holdForUpdate (Lockfile.new [105, 110, 100, 101, 120]) ⟨some [9], some []⟩ =
      .error (.LockDenied ([105, 110, 100, 101, 120] ++ lockExt)) ∧
    Lockfile.rollback ⟨[105, 110, 100, 101, 120] ++ lockExt, true⟩ ⟨some [9], some []⟩ =
      .ok (⟨[105, 110, 100, 101, 120] ++ lockExt, false⟩, ⟨some [9], none⟩) ∧
    Lockfile.holdForUpdate (Lockfile.new [105, 110, 100, 101, 120]) ⟨some [9], none⟩ =
      .ok (⟨[105, 110, 100, 101, 120] ++ lockExt, true⟩, ⟨some [9], some []⟩) := by
  refine ⟨by decide, by decide, by decide, by decide⟩

/-- C10: on an unheld Lockfile, `commit` and `rollback` never fail with
`StaleLock` (the check is built and discarded): each still performs its
filesystem operation — commit renames an existing `P.lock` onto `P`,
rollback deletes it — and surfaces an io error exactly when `P.lock` does
not exist; `write` on the same unheld value does fail with `StaleLock`. -/
theorem c10_unheld_commit_rollback (lf : Lockfile) (fs : FS) (h : lf.held = false) :
    (∀ c, fs.lock = some c →
      Lockfile.commit lf fs = .ok ({ lf with held := false }, ⟨some c, none⟩) ∧
      Lockfile.rollback lf fs = .ok ({ lf with held := false }, { fs with lock := none })) ∧
    (fs.lock = none →
      Lockfile.commit lf fs = .error .IoError ∧
      Lockfile.rollback lf fs = .error .IoError) ∧
    Lockfile.commit lf fs ≠ .error .StaleLock ∧
    Lockfile.rollback lf fs ≠ .error .StaleLock ∧
    (∀ buf, Lockfile.write lf fs buf = .error .StaleLock) := by
  refine ⟨?_, ?_, ?_, ?_, ?_⟩
  · intro c hc
    rw [Lockfile.commit, Lockfile.rollback, hc]
    exact ⟨rfl, rfl⟩
  · intro hc
    rw [Lockfile.commit, Lockfile.rollback, hc]
    exact ⟨rfl, rfl⟩
  · rw [Lockfile.commit]
    cases fs.lock <;> simp
  · rw [Lockfile.rollback]
    cases fs.lock <;> simp
  · intro buf
    rw [Lockfile.write, if_neg (by rw [h]; exact Bool.false_ne_true)]

/-- C10, witness: the theorem applied to a concrete unheld lockfile with
an existing `P.lock`. -/
theorem c10_unheld_commit_rollback_witness :
    (Lockfile.new [112]).held = false ∧
    (Lockfile.commit (Lockfile.new [112]) ⟨some [9], some [7]⟩ ≠ .error .StaleLock ∧
     Lockfile.write (Lockfile.new [112]) ⟨some [9], some [7]⟩ [1] = .error .StaleLock ∧
     Lockfile.commit (Lockfile.new [112]) ⟨some [9], some [7]⟩ =
       .ok ({ Lockfile.new [112] with held := false }, ⟨some [7], none⟩)) := by
  have h := c10_unheld_commit_rollback (Lockfile.new [112]) ⟨some [9], some [7]⟩ rfl
  exact ⟨rfl, h.2.2.1, h.2.2.2.2 [1], (h.1 [7] rfl).1⟩

/-- C3: `load_for_update` is literally `self.load()` — it never touches
the lockfile or creates `P.lock`, so on success the guard and the
filesystem come back unchanged (the read-modify-write cycle is not
lock-protected), contradicting the specified contract of acquiring the
lock before loading. -/
theorem c3_load_for_update_never_locks (H : List Nat → List Nat) (lf : Lockfile) (fs : FS)
    (ix : Index) (lf' : Lockfile) (fs' : FS)
    (h : Index.loadForUpdate H lf fs = .ok (ix, lf', fs')) :
    lf' = lf ∧ fs' = fs ∧ Index.loadForUpdate H lf fs = (Index.load H fs).map
      (fun ix => (ix, lf, fs)) := by
  refine ⟨?_, ?_, rfl⟩ <;>
  · rw [Index.loadForUpdate] at h
    cases hl : Index.load H fs with
    | error e => rw [hl] at h; cases h
    | ok ix0 =>
      rw [hl] at h
      have h2 := Except.ok.inj h
      injection h2 with h2a h2b
      injection h2b with h2c h2d
      first
        | exact h2c.symm
        | exact h2d.symm

/-- C3, witness: a concrete run of `load_for_update` on an absent index
file with no lock held. -/
theorem c3_load_for_update_never_locks_witness :
    Index.loadForUpdate H0 (Lockfile.new [112]) ⟨none, none⟩ =
      .ok (Index.new, Lockfile.new [112], ⟨none, none⟩) ∧
    (Lockfile.new [112] = Lockfile.new [112] ∧ (⟨none, none⟩ : FS) = ⟨none, none⟩ ∧
      Index.loadForUpdate H0 (Lockfile.new [112]) ⟨none, none⟩ =
        (Index.load H0 ⟨none, none⟩).map (fun ix => (ix, Lockfile.new [112], ⟨none, none⟩))) :=
  ⟨rfl, c3_load_for_update_never_locks H0 (Lockfile.new [112]) ⟨none, none⟩
    Index.new (Lockfile.new [112]) ⟨none, none⟩ rfl⟩

/-- C4: with `changed = false`, `write_updates` does not stop after the
rollback.  Holding the lock over an index file containing `[1,2,3]`, it
rolls the lock back, immediately re-acquires it, writes the full
serialized index and commits — the on-disk file is replaced even though
nothing changed; and when no lock is held and no `P.lock` exists, the
rollback's `remove_file` fails, so `write_updates` returns an io error
instead of succeeding as a no-op. -/
theorem c4_write_updates_unchanged_still_writes :
    Index.writeUpdates H0 { entries := [], parents := [], changed := false }
      ⟨[105, 110, 100, 101, 120] ++ lockExt, true⟩ ⟨some [1, 2, 3], some []⟩ =
      .ok ({ entries := [], parents := [], changed := false },
        ⟨[105, 110, 100, 101, 120] ++ lockExt, false⟩,
        ⟨some ([68, 73, 82, 67, 0, 0, 0, 2, 0, 0, 0, 0] ++ List.replicate 20 0), none⟩) ∧
    ([68, 73, 82, 67, 0, 0, 0, 2, 0, 0, 0, 0] ++ List.replicate 20 0 : List Nat) ≠ [1, 2, 3] ∧
    Index.writeUpdates H0 { entries := [], parents := [], changed := false }
      ⟨[105, 110, 100, 101, 120] ++ lockExt, false⟩ ⟨some [1, 2, 3], none⟩ =
      .error .IoError := by
  refine ⟨by decide, by decide, by decide⟩

/-! Byte-level lemmas for the index codec (claims C2 and C6). -/

theorem beVal_be32 {n : Nat} (h : n < 2 ^ 32) : beVal (be32 n) = n := by
  simp [beVal, be32]
  omega

theorem beVal_be16_pair {n : Nat} (h : n < 2 ^ 16) :
    beVal [n / 2 ^ 8 % 256, n % 256] = n := by
  simp [beVal]
  omega

theorem takeWhile_append_all {p : Nat → Bool} {xs ys : List Nat}
    (h : ∀ x ∈ xs, p x = true) : (xs ++ ys).takeWhile p = xs ++ ys.takeWhile p := by
  induction xs with
  | nil => simp
  | cons a t ih => simp_all [List.takeWhile_cons]

/-- Decomposition of an entry's byte block: a fixed-layout front (whose
length is 62 once the oid has 20 bytes), the path bytes, the NUL
terminator, and an all-NUL padding tail. -/
theorem bytes_decomp (e : Index.Entry) :
    ∃ front tail : List Nat, front.length = 40 + e.oid.length + 2 ∧
      e.bytes = front ++ (pathBytes e.path ++ (0 :: tail)) ∧ (∀ b ∈ tail, b = 0) := by
  refine ⟨be32 e.ctime ++ be32 e.ctime_nsec ++ be32 e.mtime ++ be32 e.mtime_nsec ++
    be32 e.dev ++ be32 e.ino ++ be32 e.mode ++ be32 e.uid ++ be32 e.gid ++ be32 e.size ++
    e.oid ++ be16 e.flags,
    List.replicate ((8 - (be32 e.ctime ++ be32 e.ctime_nsec ++ be32 e.mtime ++
      be32 e.mtime_nsec ++ be32 e.dev ++ be32 e.ino ++ be32 e.mode ++ be32 e.uid ++
      be32 e.gid ++ be32 e.size ++ e.oid ++ be16 e.flags ++ pathBytes e.path ++
      [0]).length % 8) % 8) 0,
    ?_, ?_, fun b hb => List.eq_of_mem_replicate hb⟩
  · simp [be32, be16]
    omega
  · rw [Index.Entry.bytes, padMod8]
    simp [List.append_assoc]

theorem bytes_length {e : Index.Entry} (hoid : e.oid.length = 20) :
    e.bytes.length = (63 + (pathBytes e.path).length) +
      (8 - (63 + (pathBytes e.path).length) % 8) % 8 := by
  simp [Index.Entry.bytes, padMod8, be32, be16, hoid]
  omega

theorem bytes_length_facts {e : Index.Entry} (hoid : e.oid.length = 20) :
    e.bytes.length % 8 = 0 ∧ 64 ≤ e.bytes.length ∧
      e.bytes.length ≤ (pathBytes e.path).length + 70 ∧
      63 + (pathBytes e.path).length ≤ e.bytes.length := by
  have h := bytes_length hoid
  omega

/-- Any byte of an entry block sitting just before a non-final 8-byte
boundary (from offset 64 onwards) is a path byte, hence nonzero. -/
theorem bytes_boundary {e : Index.Entry} (hWF : e.WF) :
    ∀ j, 64 ≤ j + 1 → (j + 1) % 8 = 0 → j + 1 < e.bytes.length → e.bytes[j]? ≠ some 0 := by
  obtain ⟨-, -, -, -, -, -, -, -, -, -, hoid, -, -, hcomp⟩ := hWF
  intro j hj1 hj8 hjlt
  have hfacts := bytes_length_facts hoid
  obtain ⟨front, tail, hflen, heq, -⟩ := bytes_decomp e
  have hf62 : front.length = 62 := by omega
  have hreg : 62 ≤ j ∧ j < 62 + (pathBytes e.path).length := by omega
  rw [heq, List.getElem?_append_right (by omega)]
  rw [List.getElem?_append_left (by omega), hf62]
  have hlt : j - 62 < (pathBytes e.path).length := by omega
  rw [List.getElem?_eq_getElem hlt]
  intro hcon
  have h0 := Option.some.inj hcon
  exact zero_not_mem_pathBytes (fun c hc => (hcomp c hc).1) (h0 ▸ List.getElem_mem hlt)

theorem getLast?_zero_cons : ∀ {l : List Nat}, (∀ b ∈ l, b = 0) →
    (0 :: l).getLast? = some 0 := by
  intro l
  induction l with
  | nil => intro _; rfl
  | cons a t ih =>
    intro h
    have ha : a = 0 := h a (List.mem_cons_self _ _)
    subst ha
    rw [List.getLast?_cons_cons]
    exact ih (fun b hb => h b (List.mem_cons_of_mem _ hb))

theorem bytes_last (e : Index.Entry) : e.bytes.getLast? = some 0 := by
  obtain ⟨front, tail, -, heq, hz⟩ := bytes_decomp e
  rw [heq, List.getLast?_append_of_ne_nil _ (by simp),
    List.getLast?_append_of_ne_nil _ (by simp)]
  exact getLast?_zero_cons hz

theorem getLast?_take {l : List Nat} {m : Nat} (h1 : 1 ≤ m) (h2 : m ≤ l.length) :
    (l.take m).getLast? = l[m - 1]? := by
  rw [List.getLast?_eq_getElem?]
  simp [List.getElem?_take, Nat.min_eq_left h2]
  omega

/-- One full run of the `read_entries` 8-byte loop: starting from the
first 64 bytes of a well-formed entry block (`m = 64`), the loop consumes
exactly the block and leaves the rest of the stream untouched. -/
theorem readEntryTail_run (eb rest : List Nat)
    (hlast : eb.getLast? = some 0)
    (hbound : ∀ j, 64 ≤ j + 1 → (j + 1) % 8 = 0 → j + 1 < eb.length → eb[j]? ≠ some 0)
    (hlen8 : eb.length % 8 = 0) :
    ∀ (K m fuel : Nat) (dig : List Nat), m % 8 = 0 → 64 ≤ m → m + 8 * K = eb.length →
      K < fuel →
      Index.readEntryTail fuel (eb.take m) ⟨eb.drop m ++ rest, dig⟩ =
        .ok (eb, ⟨rest, dig ++ eb.drop m⟩) := by
  intro K
  induction K with
  | zero =>
    intro m fuel dig hm8 hm64 hmlen hfuel
    have hm : m = eb.length := by omega
    cases fuel with
    | zero => omega
    | succ f =>
      rw [Index.readEntryTail]
      rw [hm, List.take_length, List.drop_length, if_pos hlast]
      simp
  | succ K ih =>
    intro m fuel dig hm8 hm64 hmlen hfuel
    cases fuel with
    | zero => omega
    | succ f =>
      rw [Index.readEntryTail]
      have hlt : m < eb.length := by omega
      have hne : (eb.take m).getLast? ≠ some 0 := by
        rw [getLast?_take (by omega) (by omega)]
        exact hbound (m - 1) (by omega) (by omega) (by omega)
      rw [if_neg hne]
      rw [Checksum.read]
      rw [if_neg (by simp; omega)]
      have htk : (eb.drop m ++ rest).take 8 = (eb.drop m).take 8 :=
        List.take_append_of_le_length (by simp; omega)
      have hdr : (eb.drop m ++ rest).drop 8 = eb.drop (m + 8) ++ rest := by
        rw [List.drop_append_of_le_length (by simp; omega)]
        rw [show eb.drop (m + 8) = (eb.drop m).drop 8 by rw [List.drop_drop]]
      show Index.readEntryTail f (eb.take m ++ (eb.drop m ++ rest).take 8)
          ⟨(eb.drop m ++ rest).drop 8, dig ++ (eb.drop m ++ rest).take 8⟩ =
        .ok (eb, ⟨rest, dig ++ eb.drop m⟩)
      rw [htk, hdr]
      have hacc8 : eb.take m ++ (eb.drop m).take 8 = eb.take (m + 8) := by
        rw [← List.take_add]
      rw [hacc8]
      have hfinal := ih (m + 8) f (dig ++ (eb.drop m).take 8)
        (by omega) (by omega) (by omega) (by omega)
      rw [hfinal]
      have hjoin : (eb.drop m).take 8 ++ eb.drop (m + 8) = eb.drop m := by
        rw [show eb.drop (m + 8) = (eb.drop m).drop 8 by rw [List.drop_drop]]
        exact List.take_append_drop 8 (eb.drop m)
      rw [List.append_assoc, hjoin]

/-- Bind of an `ok` value reduces. -/
theorem except_bind_ok {α β : Type} (a : α) (f : α → Except NitErr β) :
    (Except.ok a >>= f : Except NitErr β) = f a := rfl

/-- Codec round-trip: `Entry::parse` recovers a well-formed entry from
`Entry::bytes` exactly — in particular its path, mode and oid. -/
theorem parse_bytes {e : Index.Entry} (hWF : e.WF) : Index.Entry.parse e.bytes = e := by
  obtain ⟨hc1, hc2, hc3, hc4, hc5, hc6, hc7, hc8, hc9, hc10, hoid, hfl, hpne, hcomp⟩ := hWF
  obtain ⟨ct, ctn, mt, mtn, dv, ino, md, ui, gi, sz, od, fl, pa⟩ := e
  simp only at hc1 hc2 hc3 hc4 hc5 hc6 hc7 hc8 hc9 hc10 hoid hfl hpne hcomp
  have hshape : ∃ tail : List Nat,
      Index.Entry.bytes ⟨ct, ctn, mt, mtn, dv, ino, md, ui, gi, sz, od, fl, pa⟩ =
        be32 ct ++ (be32 ctn ++ (be32 mt ++ (be32 mtn ++ (be32 dv ++ (be32 ino ++
        (be32 md ++ (be32 ui ++ (be32 gi ++ (be32 sz ++ (od ++ (be16 fl ++
        (pathBytes pa ++ (0 :: tail))))))))))))) := by
    refine ⟨List.replicate ((8 - (be32 ct ++ be32 ctn ++ be32 mt ++ be32 mtn ++ be32 dv ++
      be32 ino ++ be32 md ++ be32 ui ++ be32 gi ++ be32 sz ++ od ++ be16 fl ++
      pathBytes pa ++ [0]).length % 8) % 8) 0, ?_⟩
    rw [Index.Entry.bytes, padMod8]
    simp [List.append_assoc]
  obtain ⟨tail, hb⟩ := hshape
  rw [hb]
  set shape := be32 ct ++ (be32 ctn ++ (be32 mt ++ (be32 mtn ++ (be32 dv ++ (be32 ino ++
    (be32 md ++ (be32 ui ++ (be32 gi ++ (be32 sz ++ (od ++ (be16 fl ++
    (pathBytes pa ++ (0 :: tail))))))))))))) with hshapedef
  have h40 : shape.drop 40 = od ++ (be16 fl ++ (pathBytes pa ++ (0 :: tail))) := by
    rw [hshapedef]; rfl
  have h60 : shape.drop 60 = be16 fl ++ (pathBytes pa ++ (0 :: tail)) := by
    have h1 : shape.drop 60 = (shape.drop 40).drop 20 := by rw [List.drop_drop]
    rw [h1, h40, List.drop_left' hoid]
  have h62 : shape.drop 62 = pathBytes pa ++ (0 :: tail) := by
    have h1 : shape.drop 62 = (shape.drop 60).drop 2 := by rw [List.drop_drop]
    rw [h1, h60]; rfl
  rw [Index.Entry.parse]
  simp only [Index.Entry.mk.injEq]
  refine ⟨?_, ?_, ?_, ?_, ?_, ?_, ?_, ?_, ?_, ?_, ?_, ?_, ?_⟩
  · rw [show shape.take 4 = be32 ct from by rw [hshapedef]; rfl]
    exact beVal_be32 hc1
  · rw [show (shape.drop 4).take 4 = be32 ctn from by rw [hshapedef]; rfl]
    exact beVal_be32 hc2
  · rw [show (shape.drop 8).take 4 = be32 mt from by rw [hshapedef]; rfl]
    exact beVal_be32 hc3
  · rw [show (shape.drop 12).take 4 = be32 mtn from by rw [hshapedef]; rfl]
    exact beVal_be32 hc4
  · rw [show (shape.drop 16).take 4 = be32 dv from by rw [hshapedef]; rfl]
    exact beVal_be32 hc5
  · rw [show (shape.drop 20).take 4 = be32 ino from by rw [hshapedef]; rfl]
    exact beVal_be32 hc6
  · rw [show (shape.drop 24).take 4 = be32 md from by rw [hshapedef]; rfl]
    exact beVal_be32 hc7
  · rw [show (shape.drop 28).take 4 = be32 ui from by rw [hshapedef]; rfl]
    exact beVal_be32 hc8
  · rw [show (shape.drop 32).take 4 = be32 gi from by rw [hshapedef]; rfl]
    exact beVal_be32 hc9
  · rw [show (shape.drop 36).take 4 = be32 sz from by rw [hshapedef]; rfl]
    exact beVal_be32 hc10
  · rw [h40, List.take_left' hoid]
  · rw [h60, show (be16 fl ++ (pathBytes pa ++ (0 :: tail))).take 2 = be16 fl from rfl]
    exact beVal_be16_pair hfl
  · rw [h62]
    rw [takeWhile_append_all (p := fun b => decide (b ≠ 0))
      (fun x hx => by
        simp only [decide_eq_true_eq]
        intro h0
        exact zero_not_mem_pathBytes (fun c hc => (hcomp c hc).1) (h0 ▸ hx))]
    rw [show (0 :: tail).takeWhile (fun b => decide (b ≠ 0)) = [] from rfl, List.append_nil]
    rw [splitPath, pathBytes]
    exact List.splitOn_intercalate pa 47 (fun l hl => (hcomp l hl).2) hpne

/-- One full `read_entries` entry read on a well-formed entry block:
exactly the block is consumed. -/
theorem readEntryBytes_run {e : Index.Entry} (hWF : e.WF) (rest dig : List Nat) :
    Index.readEntryBytes ⟨e.bytes ++ rest, dig⟩ = .ok (e.bytes, ⟨rest, dig ++ e.bytes⟩) := by
  have hoid : e.oid.length = 20 := hWF.2.2.2.2.2.2.2.2.2.2.1
  have hfacts := bytes_length_facts hoid
  rw [Index.readEntryBytes, Checksum.read, if_neg (by simp; omega), except_bind_ok]
  have htk : (e.bytes ++ rest).take 64 = e.bytes.take 64 :=
    List.take_append_of_le_length (by omega)
  have hdr : (e.bytes ++ rest).drop 64 = e.bytes.drop 64 ++ rest :=
    List.drop_append_of_le_length (by omega)
  dsimp only
  rw [htk, hdr]
  have hrun := readEntryTail_run e.bytes rest (bytes_last e)
    (bytes_boundary hWF) hfacts.1 ((e.bytes.length - 64) / 8) 64
    ((e.bytes.drop 64 ++ rest).length + 1) (dig ++ e.bytes.take 64)
    (by omega) (by omega) (by omega) (by simp; omega)
  rw [hrun]
  rw [List.append_assoc, List.take_append_drop]

/-- The `for _ in 0..count` loop of `read_entries` over the concatenated
blocks of a list of well-formed entries parses back exactly that list. -/
theorem readEntriesGo_run :
    ∀ (es : List Index.Entry), (∀ e ∈ es, e.WF) → ∀ rest dig : List Nat,
      Index.readEntriesGo es.length ⟨(es.map Index.Entry.bytes).flatten ++ rest, dig⟩ =
        .ok (es, ⟨rest, dig ++ (es.map Index.Entry.bytes).flatten⟩) := by
  intro es
  induction es with
  | nil =>
    intro _ rest dig
    simp [Index.readEntriesGo]
  | cons e t ih =>
    intro hwf rest dig
    have hstream : ((e :: t).map Index.Entry.bytes).flatten ++ rest =
        e.bytes ++ ((t.map Index.Entry.bytes).flatten ++ rest) := by
      simp [List.append_assoc]
    rw [show (e :: t).length = t.length + 1 from rfl, Index.readEntriesGo, hstream]
    rw [readEntryBytes_run (hwf e (List.mem_cons_self _ _)), except_bind_ok]
    dsimp only
    rw [ih (fun e' he' => hwf e' (List.mem_cons_of_mem _ he')), except_bind_ok]
    dsimp only
    rw [parse_bytes (hwf e (List.mem_cons_self _ _))]
    simp only [List.map_cons, List.flatten_cons, ← List.append_assoc]
    rfl

/-- `read_header` on a serialized header followed by anything validates
and returns the entry count. -/
theorem readHeader_run (n : Nat) (hn : n < 2 ^ 32) (body : List Nat) :
    Index.readHeader ⟨Index.headerBytes n ++ body, []⟩ =
      .ok (n, ⟨body, Index.headerBytes n⟩) := by
  have hhb : (Index.headerBytes n).length = 12 := by
    simp [Index.headerBytes, SIGNATURE, be32]
  rw [Index.readHeader, Checksum.read, if_neg (by simp; omega), except_bind_ok]
  dsimp only
  have htk : (Index.headerBytes n ++ body).take 12 = Index.headerBytes n := by
    rw [List.take_append_of_le_length (by omega), List.take_of_length_le (by omega)]
  have hdr : (Index.headerBytes n ++ body).drop 12 = body := List.drop_left' hhb
  rw [htk, hdr]
  rw [if_neg (show ¬ ((Index.headerBytes n).take 4 ≠ SIGNATURE) from fun h => h rfl)]
  rw [if_neg (show ¬ (beVal (((Index.headerBytes n).drop 4).take 4) ≠ VERSION) from
    fun h => h rfl)]
  have hcount : beVal (((Index.headerBytes n).drop 8).take 4) = n := by
    rw [show ((Index.headerBytes n).drop 8).take 4 = be32 (u32 n) from rfl,
      show u32 n = n from Nat.mod_eq_of_lt hn]
    exact beVal_be32 hn
  rw [hcount]
  rfl

/-- Full `Index::load` run on a serialized index file: header validation,
entry reads, checksum verification all succeed and the loaded index is
the `store_entry` fold of the original entry list. -/
theorem loadFromBytes_run (H : List Nat → List Nat) (hH : ∀ x, (H x).length = 20)
    (es : List Index.Entry) (hwf : ∀ e ∈ es, e.WF) (hcount : es.length < 2 ^ 32) :
    Index.loadFromBytes H
      ((Index.headerBytes es.length ++ (es.map Index.Entry.bytes).flatten) ++
        H (Index.headerBytes es.length ++ (es.map Index.Entry.bytes).flatten)) =
      .ok (es.foldl Index.storeEntry Index.new) := by
  set content := Index.headerBytes es.length ++ (es.map Index.Entry.bytes).flatten
    with hcontent
  rw [Index.loadFromBytes, Index.loadPhase1]
  rw [show content ++ H content =
    Index.headerBytes es.length ++ ((es.map Index.Entry.bytes).flatten ++ H content) from by
      rw [hcontent, List.append_assoc]]
  rw [readHeader_run es.length hcount ((es.map Index.Entry.bytes).flatten ++ H content),
    except_bind_ok]
  dsimp only
  rw [readEntriesGo_run es hwf (H content) (Index.headerBytes es.length), except_bind_ok]
  dsimp only
  rw [← hcontent]
  rw [Checksum.verifyChecksum]
  rw [if_neg (show ¬ ((H content).length < 20) from by rw [hH]; omega)]
  rw [if_neg (show ¬ ((H content).take 20 ≠ H content) from fun h =>
    h (List.take_of_length_le (le_of_eq (hH content))))]
  rw [except_bind_ok]
  rfl

theorem insA_append_gt {k : Path} {v : Index.Entry} {l : List (Path × Index.Entry)}
    (h : ∀ kv ∈ l, kv.1 < k) : insA k v l = l ++ [(k, v)] := by
  rw [insA, eraseA_eq_of_ne (fun kv hkv => ne_of_lt (h kv hkv)), insOrd_append_gt h]

/-- Folding `store_entry` over a strictly path-sorted entry list (all
greater than the existing keys) appends the entries in order. -/
theorem fold_storeEntry_entries :
    ∀ (es : List Index.Entry) (ix0 : Index),
      (∀ kv ∈ ix0.entries, ∀ e ∈ es, kv.1 < e.path) →
      es.Pairwise (fun a b => a.path < b.path) →
      (es.foldl Index.storeEntry ix0).entries =
        ix0.entries ++ es.map (fun e => (e.path, e)) := by
  intro es
  induction es with
  | nil => intro ix0 _ _; simp
  | cons e t ih =>
    intro ix0 hlt hp
    rw [List.foldl_cons]
    have hstep : (ix0.storeEntry e).entries = ix0.entries ++ [(e.path, e)] := by
      rw [Index.storeEntry]
      exact insA_append_gt (fun kv hkv => hlt kv hkv e (List.mem_cons_self _ _))
    have hlt' : ∀ kv ∈ (ix0.storeEntry e).entries, ∀ e' ∈ t, kv.1 < e'.path := by
      intro kv hkv e' he'
      rw [hstep] at hkv
      rcases List.mem_append.1 hkv with h1 | h1
      · exact hlt kv h1 e' (List.mem_cons_of_mem _ he')
      · have : kv = (e.path, e) := by simpa using h1
        rw [this]
        exact (List.pairwise_cons.1 hp).1 e' he'
    rw [ih (ix0.storeEntry e) hlt' (List.pairwise_cons.1 hp).2, hstep]
    simp

/-- C2: index round-trip.  For any list of well-formed entries held in an
index in strictly path-sorted order (as the `BTreeMap` keeps them), the
bytes committed by `write_updates` — header, entry blocks in order, and
trailing digest — load back to an index with exactly the same entry list
(same paths, modes, oids, all metadata, in the same sorted order),
whatever the auxiliary parents map and dirty flag were; and at the codec
level `Entry::parse (Entry::bytes e)` recovers each such entry exactly.
The digest is an arbitrary 20-byte function of the content, and the entry
count must fit the header's u32 field. -/
theorem c2_roundtrip (H : List Nat → List Nat) (hH : ∀ x, (H x).length = 20)
    (es : List Index.Entry) (hwf : ∀ e ∈ es, e.WF)
    (hsorted : es.Pairwise (fun a b => a.path < b.path))
    (hcount : es.length < 2 ^ 32) :
    (∀ (ps : List (Path × List Path)) (ch : Bool),
      (Index.loadFromBytes H
          (indexFileBytes H ⟨es.map (fun e => (e.path, e)), ps, ch⟩)).map Index.entries =
        .ok (es.map (fun e => (e.path, e)))) ∧
    (∀ e ∈ es, Index.Entry.parse e.bytes = e) := by
  constructor
  · intro ps ch
    have harg : indexFileBytes H ⟨es.map (fun e => (e.path, e)), ps, ch⟩ =
        (Index.headerBytes es.length ++ (es.map Index.Entry.bytes).flatten) ++
          H (Index.headerBytes es.length ++ (es.map Index.Entry.bytes).flatten) := by
      simp only [indexFileBytes, Index.contentBytes, Index.bodyBytes, List.map_map,
        List.length_map]
      rfl
    rw [harg, loadFromBytes_run H hH es hwf hcount]
    rw [Except.map]
    rw [fold_storeEntry_entries es Index.new (fun kv hkv => by cases hkv) hsorted]
    rfl
  · exact fun e he => parse_bytes (hwf e he)

/-- C2, witness: round-trip of a concrete one-entry index through the
serialized bytes. -/
theorem c2_roundtrip_witness :
    ((∀ x, (H0 x).length = 20) ∧
      (∀ e ∈ [Index.Entry.new [[97]] oid0 stat0], e.WF) ∧
      [Index.Entry.new [[97]] oid0 stat0].Pairwise (fun a b => a.path < b.path) ∧
      [Index.Entry.new [[97]] oid0 stat0].length < 2 ^ 32) ∧
    ((∀ (ps : List (Path × List Path)) (ch : Bool),
      (Index.loadFromBytes H0 (indexFileBytes H0
          ⟨[Index.Entry.new [[97]] oid0 stat0].map (fun e => (e.path, e)), ps, ch⟩)).map
        Index.entries =
        .ok ([Index.Entry.new [[97]] oid0 stat0].map (fun e => (e.path, e)))) ∧
      (∀ e ∈ [Index.Entry.new [[97]] oid0 stat0], Index.Entry.parse e.bytes = e)) :=
  ⟨⟨fun _ => rfl, by decide, by decide, by norm_num⟩,
    c2_roundtrip H0 (fun _ => rfl) _ (by decide) (by decide) (by norm_num)⟩

/-! Reader-state invariants for the checksum claim (C6). -/

theorem read_split {n : Nat} {st : RState} {out : List Nat} {st' : RState}
    (h : Checksum.read n st = .ok (out, st')) : st.dig ++ st.rem = st'.dig ++ st'.rem := by
  rw [Checksum.read] at h
  split at h
  · cases h
  · have h2 := Except.ok.inj h
    injection h2 with h2a h2b
    subst h2b
    dsimp only
    rw [List.append_assoc, List.take_append_drop]

theorem readHeader_split {st : RState} {n : Nat} {st' : RState}
    (h : Index.readHeader st = .ok (n, st')) : st.dig ++ st.rem = st'.dig ++ st'.rem := by
  rw [Index.readHeader] at h
  cases hr : Checksum.read 12 st with
  | error e => rw [hr] at h; cases h
  | ok pair =>
    obtain ⟨data, st1⟩ := pair
    rw [hr, except_bind_ok] at h
    dsimp only at h
    split at h
    · cases h
    · split at h
      · cases h
      · have h2 := Except.ok.inj h
        injection h2 with h2a h2b
        subst h2b
        exact read_split hr

theorem readEntryTail_split :
    ∀ (fuel : Nat) (acc : List Nat) (st : RState) (out : List Nat) (st' : RState),
      Index.readEntryTail fuel acc st = .ok (out, st') →
      st.dig ++ st.rem = st'.dig ++ st'.rem := by
  intro fuel
  induction fuel with
  | zero => intro acc st out st' h; cases h
  | succ f ih =>
    intro acc st out st' h
    rw [Index.readEntryTail] at h
    split at h
    · have h2 := Except.ok.inj h
      injection h2 with h2a h2b
      subst h2b
      rfl
    · cases hr : Checksum.read 8 st with
      | error e => rw [hr] at h; cases h
      | ok pair =>
        obtain ⟨block, st1⟩ := pair
        rw [hr] at h
        rw [read_split hr]
        exact ih _ _ _ _ h

theorem readEntryBytes_split {st : RState} {out : List Nat} {st' : RState}
    (h : Index.readEntryBytes st = .ok (out, st')) : st.dig ++ st.rem = st'.dig ++ st'.rem := by
  rw [Index.readEntryBytes] at h
  cases hr : Checksum.read 64 st with
  | error e => rw [hr] at h; cases h
  | ok pair =>
    obtain ⟨first, st1⟩ := pair
    rw [hr, except_bind_ok] at h
    dsimp only at h
    rw [read_split hr]
    exact readEntryTail_split _ _ _ _ _ h

theorem readEntriesGo_split :
    ∀ (count : Nat) {st : RState} {es : List Index.Entry} {st' : RState},
      Index.readEntriesGo count st = .ok (es, st') → st.dig ++ st.rem = st'.dig ++ st'.rem := by
  intro count
  induction count with
  | zero =>
    intro st es st' h
    rw [Index.readEntriesGo] at h
    have h2 := Except.ok.inj h
    injection h2 with h2a h2b
    subst h2b
    rfl
  | succ n ih =>
    intro st es st' h
    rw [Index.readEntriesGo] at h
    cases hr : Index.readEntryBytes st with
    | error e => rw [hr] at h; cases h
    | ok pair =>
      obtain ⟨bs, st1⟩ := pair
      rw [hr, except_bind_ok] at h
      dsimp only at h
      cases hr2 : Index.readEntriesGo n st1 with
      | error e => rw [hr2] at h; cases h
      | ok pair2 =>
        obtain ⟨es2, st2⟩ := pair2
        rw [hr2, except_bind_ok] at h
        dsimp only at h
        have h2 := Except.ok.inj h
        injection h2 with h2a h2b
        subst h2b
        rw [readEntryBytes_split hr]
        exact ih hr2

theorem loadPhase1_split {bs : List Nat} {es : List Index.Entry} {st' : RState}
    (h : Index.loadPhase1 bs = .ok (es, st')) : bs = st'.dig ++ st'.rem := by
  rw [Index.loadPhase1] at h
  cases hr : Index.readHeader ⟨bs, []⟩ with
  | error e => rw [hr] at h; cases h
  | ok pair =>
    obtain ⟨count, st1⟩ := pair
    rw [hr, except_bind_ok] at h
    dsimp only at h
    have h1 : ([] : List Nat) ++ bs = st1.dig ++ st1.rem := readHeader_split hr
    rw [List.nil_append] at h1
    rw [h1]
    exact readEntriesGo_split count h

/-- C6, counterexample to the claim as stated: corrupting the first byte
of a valid persisted index file (the `D` of the `DIRC` signature becomes
`X`) makes the next load fail with `IncorrectSignature`, not
`BadChecksum`. -/
theorem c6_counterexample :
    Index.loadFromBytes H0 (indexFileBytes H0 Index.new) = .ok Index.new ∧
    Index.loadFromBytes H0 (88 :: (indexFileBytes H0 Index.new).drop 1) =
      .error (.IncorrectSignature [88, 73, 82, 67]) ∧
    NitErr.IncorrectSignature [88, 73, 82, 67] ≠ NitErr.BadChecksum := by
  refine ⟨by decide, by decide, by decide⟩

/-- C6, amended: `load` never succeeds returning data that disagrees with
the stored checksum — a successful load splits the file into the consumed
body, a 20-byte trailer equal to the digest of that body, and unread
trailing bytes; and whenever the header and entries parse but the next 20
bytes differ from the accumulated digest, load fails exactly with
`BadChecksum`.  (A corrupted byte can also surface as a different parse
error, such as `IncorrectSignature`, and detection of a body corruption
rests on the digest function distinguishing the two bodies.) -/
theorem c6_checksum_enforcement (H : List Nat → List Nat) (bs : List Nat) :
    (∀ ix, Index.loadFromBytes H bs = .ok ix →
      ∃ body rest, bs = body ++ (H body ++ rest) ∧ body ++ H body ++ rest = bs) ∧
    (∀ es st', Index.loadPhase1 bs = .ok (es, st') → ¬ st'.rem.length < 20 →
      st'.rem.take 20 ≠ H st'.dig →
      Index.loadFromBytes H bs = .error .BadChecksum) := by
  constructor
  · intro ix h
    rw [Index.loadFromBytes] at h
    cases hr : Index.loadPhase1 bs with
    | error e => rw [hr] at h; cases h
    | ok pair =>
      obtain ⟨es, st1⟩ := pair
      rw [hr, except_bind_ok] at h
      dsimp only at h
      cases hv : Checksum.verifyChecksum H st1 with
      | error e => rw [hv] at h; cases h
      | ok st2 =>
        rw [Checksum.verifyChecksum] at hv
        split at hv
        · cases hv
        · split at hv
          · cases hv
          · next hlen htrail =>
            rw [not_not] at htrail
            refine ⟨st1.dig, st1.rem.drop 20, ?_, ?_⟩
            · rw [← htrail, List.take_append_drop]
              exact loadPhase1_split hr
            · rw [List.append_assoc, ← htrail, List.take_append_drop]
              exact (loadPhase1_split hr).symm
  · intro es st' h hlen htrail
    rw [Index.loadFromBytes, h, except_bind_ok]
    dsimp only
    rw [Checksum.verifyChecksum, if_neg hlen, if_pos htrail]
    rfl

/-- C6, witness: the amended theorem applied to a concrete valid file and
to a concrete file whose trailer was corrupted (digest bytes zeroed out
replaced by ones), which fails with `BadChecksum`. -/
theorem c6_checksum_enforcement_witness :
    (Index.loadFromBytes H0 (indexFileBytes H0 Index.new) = .ok Index.new ∧
      (∃ body rest, indexFileBytes H0 Index.new = body ++ (H0 body ++ rest) ∧
        body ++ H0 body ++ rest = indexFileBytes H0 Index.new)) ∧
    (Index.loadPhase1 (Index.headerBytes 0 ++ List.replicate 20 1) =
        .ok ([], ⟨List.replicate 20 1, Index.headerBytes 0⟩) ∧
      Index.loadFromBytes H0 (Index.headerBytes 0 ++ List.replicate 20 1) =
        .error .BadChecksum) := by
  refine ⟨⟨by decide, ?_⟩, ⟨by decide, ?_⟩⟩
  · exact ((c6_checksum_enforcement H0 (indexFileBytes H0 Index.new)).1 Index.new (by decide))
  · exact (c6_checksum_enforcement H0 (Index.headerBytes 0 ++ List.replicate 20 1)).2
      [] ⟨List.replicate 20 1, Index.headerBytes 0⟩ (by decide) (by decide) (by decide)

/-- C7, evaluation at the failing input: building a tree from the single
entry `a/b.txt` creates the subtree keyed `a`, but the leaf inside it is
keyed by — and serialized with — the full path bytes `a/b.txt`
(`entry.name`), not the final segment `b.txt` the claim requires; the
serialization is otherwise `<octal-mode> space <name> NUL <oid>`. -/
theorem c7_tree_leaf_full_path :
    Tree.build [⟨[97, 47, 98, 46, 116, 120, 116], oid0, .Regular⟩] =
      [([97], .tree [([97, 47, 98, 46, 116, 120, 116],
        .obj ⟨[97, 47, 98, 46, 116, 120, 116], oid0, .Regular⟩)] none)] ∧
    treeData [([97, 47, 98, 46, 116, 120, 116],
        .obj ⟨[97, 47, 98, 46, 116, 120, 116], oid0, .Regular⟩)] =
      some (REGULAR_MODE_B ++ [32] ++ [97, 47, 98, 46, 116, 120, 116] ++ [0] ++ oid0) ∧
    ([97, 47, 98, 46, 116, 120, 116] : List Nat) ≠ [98, 46, 116, 120, 116] := by
  refine ⟨rfl, rfl, by decide⟩

end Nit
